import Mathlib

/-!
Verification of the DNA triangulation analytical pipeline: interval-overlap
grouping per chromosome, confidence scoring, relationship-band prediction,
identity canonicalization/deduplication, and ancestor-based group splitting.

Numbers: chromosome/base-pair coordinates are integers (`ℤ`); centimorgan
sizes, thresholds and probabilities are rationals (`ℚ`).  JavaScript
`Math.round` is half-up rounding, modelled by `jsRound`.
-/

namespace DNATri

/-- JavaScript `Math.round`: round half up. -/
def jsRound (q : ℚ) : ℤ := ⌊q + 1/2⌋

/-- Tree-match record attached to a DNA match after cross-referencing
(`TreeMatchInfo` in types/triangulation). -/
structure TreeMatchInfo where
  matchName : String
  treeIndividuals : List String
  commonSurnames : List String
  suggestedAncestors : List String
deriving DecidableEq, Repr

/-- A normalized DNA segment record (`DNAMatch`). Optional fields model
`undefined` by `none`. -/
structure DNAMatch where
  matchName : String
  chromosome : ℤ
  startPosition : ℤ
  endPosition : ℤ
  sizeCM : ℚ
  matchingSNPs : Option ℤ := none
  yHaplogroup : Option String := none
  mtHaplogroup : Option String := none
  ancestralSurnames : Option (List String) := none
  locations : Option (List String) := none
  notes : Option String := none
  treeMatchInfo : Option (List TreeMatchInfo) := none
deriving DecidableEq, Repr

instance : Inhabited DNAMatch :=
  ⟨{ matchName := "", chromosome := 0, startPosition := 0, endPosition := 0, sizeCM := 0 }⟩

/-- Relationship band data (`RELATIONSHIP_DATA` entries). -/
structure RelBand where
  bmin : ℚ
  bmax : ℚ
  probability : ℚ
deriving DecidableEq, Repr

/-- The result of `predictRelationship`. -/
structure RelationshipPrediction where
  relationship : String
  probability : ℚ
  confidence : String
deriving DecidableEq, Repr

/-- A triangulation group (`TriangulationGroup`). -/
structure TriangulationGroup where
  chromosome : ℤ
  startPosition : ℤ
  endPosition : ℤ
  «matches» : List DNAMatch
  averageSize : ℚ
  totalSize : ℚ
  confidenceScore : ℤ
  relationshipPrediction : Option RelationshipPrediction := none
  commonAncestors : Option (List String) := none
  treeMatches : Option (List TreeMatchInfo) := none
deriving DecidableEq, Repr

/-- Settings (`TriangulationSettings`); presentation-only fields omitted. -/
structure TriangulationSettings where
  minimumSize : ℚ
  minimumMatches : ℕ
  overlapThreshold : ℚ
  enableRelationshipPrediction : Bool
  enableConfidenceScoring : Bool
  enableCrossVerification : Bool
deriving DecidableEq, Repr

/-- The defaults from the engine (`DEFAULT_SETTINGS`). -/
def DEFAULT_SETTINGS : TriangulationSettings :=
  { minimumSize := 7, minimumMatches := 3, overlapThreshold := 1/2,
    enableRelationshipPrediction := true, enableConfidenceScoring := true,
    enableCrossVerification := false }

/-! ## Interval grouping engine (`findTriangulationsOnChromosome`) -/

/-- `Math.max` over the start positions of a non-empty member list
(`Math.max(...overlappingMatches.map(m => m.startPosition))`). -/
def maxStartOf (ms : List DNAMatch) : ℤ :=
  (ms.map (·.startPosition)).foldl max ((ms.headD default).startPosition)

/-- `Math.min` over the end positions of a non-empty member list. -/
def minEndOf (ms : List DNAMatch) : ℤ :=
  (ms.map (·.endPosition)).foldl min ((ms.headD default).endPosition)

/-- Total size in cM of a member list (`reduce((sum, m) => sum + m.sizeCM, 0)`). -/
def totalSizeOf (ms : List DNAMatch) : ℚ := (ms.map (·.sizeCM)).foldl (· + ·) 0

/-- The candidate-acceptance test of the inner scan: positive overlap with the
seed and overlap ratio (against the smaller span) at least the threshold. -/
def acceptsCandidate (base t : DNAMatch) (thr : ℚ) : Prop :=
  max base.startPosition t.startPosition < min base.endPosition t.endPosition ∧
    thr ≤ ((min base.endPosition t.endPosition - max base.startPosition t.startPosition : ℤ) : ℚ) /
      ((min (base.endPosition - base.startPosition) (t.endPosition - t.startPosition) : ℤ) : ℚ)

instance (base t : DNAMatch) (thr : ℚ) : Decidable (acceptsCandidate base t thr) := by
  unfold acceptsCandidate; infer_instance

/-- The inner candidate scan of `findTriangulationsOnChromosome`
(`for j = i+1 ...`): skip processed indices, stop at the first candidate
whose start exceeds the seed's end, accept on the overlap test. -/
def scanCandidates (ms : List DNAMatch) (base : DNAMatch) (thr : ℚ)
    (processed : List ℕ) : List ℕ → List ℕ
  | [] => []
  | j :: js =>
    if j ∈ processed then scanCandidates ms base thr processed js
    else
      let t := ms.getD j default
      if base.endPosition < t.startPosition then []
      else if acceptsCandidate base t thr then
        j :: scanCandidates ms base thr processed js
      else scanCandidates ms base thr processed js

/-- One chromosome sweep: iterate seeds in sorted order, emit each group
together with the member indices it consumed
(`overlappingMatches` / `overlappingIndices`). -/
def sweepFrom (ms : List DNAMatch) (s : TriangulationSettings) :
    List ℕ → List ℕ → List (TriangulationGroup × List ℕ)
  | [], _ => []
  | i :: is, processed =>
    if i ∈ processed then sweepFrom ms s is processed
    else
      let base := ms.getD i default
      let accepted := i :: scanCandidates ms base s.overlapThreshold processed is
      let members := accepted.map (fun j => ms.getD j default)
      if s.minimumMatches ≤ members.length then
        let startP := maxStartOf members
        let endP := minEndOf members
        if startP < endP then
          let total := totalSizeOf members
          ({ chromosome := base.chromosome, startPosition := startP, endPosition := endP,
             «matches» := members, averageSize := total / (members.length : ℚ),
             totalSize := total, confidenceScore := 0 }, accepted) ::
            sweepFrom ms s is (processed ++ accepted)
        else sweepFrom ms s is processed
      else sweepFrom ms s is processed

/-- Stable insertion of a segment into a start-sorted list: the inserted
element goes before the first element whose start is not smaller.  Used with
`foldr`, elements originally earlier stay before equal-start elements. -/
def insertByStart (m : DNAMatch) : List DNAMatch → List DNAMatch
  | [] => [m]
  | x :: xs =>
    if m.startPosition ≤ x.startPosition then m :: x :: xs
    else x :: insertByStart m xs

/-- `matches.sort((a, b) => a.startPosition - b.startPosition)`: a stable sort
ascending by start position (modern `Array.prototype.sort` is stable). -/
def sortByStart (ms : List DNAMatch) : List DNAMatch :=
  ms.foldr insertByStart []

/-- `findTriangulationsOnChromosome`: sort by start, sweep, return groups. -/
def findTriangulationsOnChromosome (ms : List DNAMatch) (s : TriangulationSettings) :
    List TriangulationGroup :=
  let sorted := sortByStart ms
  (sweepFrom sorted s (List.range sorted.length) []).map Prod.fst

/-- The member-index sets consumed by each emitted group of one sweep. -/
def sweepIndexSets (ms : List DNAMatch) (s : TriangulationSettings) : List (List ℕ) :=
  let sorted := sortByStart ms
  (sweepFrom sorted s (List.range sorted.length) []).map Prod.snd

/-! ## Ancestor-based group splitting (`splitGroupsBySingleCommonAncestor`) -/

/-- JS `Set.add` on a list kept in insertion order. -/
def jsSetAddNat (l : List ℕ) (x : ℕ) : List ℕ := if x ∈ l then l else l ++ [x]

/-- `Array.from(new Set(a))`: deduplicate keeping first occurrences. -/
def jsSetDedupNat (l : List ℕ) : List ℕ := l.foldl jsSetAddNat []

/-- Insert-or-append into the `Map`-backed `ancestorToMatches` (JS `Map`
iterates in key-insertion order); values are indices into the group's member
list, standing for the distinct member objects pushed by the source. -/
def addAncestorIdx (l : List (String × List ℕ)) (a : String) (i : ℕ) :
    List (String × List ℕ) :=
  if (l.lookup a).isSome then
    l.map (fun p => if p.1 = a then (p.1, p.2 ++ [i]) else p)
  else l ++ [(a, [i])]

/-- Collect, per distinct suggested ancestor, the member indices whose tree
matches reference it (the `ancestorToMatches` map build). -/
def collectAncestors (ms : List DNAMatch) : List (String × List ℕ) :=
  ms.enum.foldl (fun acc p =>
    (p.2.treeMatchInfo.getD []).foldl (fun acc tm =>
      tm.suggestedAncestors.foldl (fun acc a => addAncestorIdx acc a p.1) acc) acc) []

/-- Build the sub-group of one ancestor from a group, if it qualifies
(deduplicated members, minimum count, strictly positive intersection span). -/
def subGroupFor (g : TriangulationGroup) (s : TriangulationSettings)
    (p : String × List ℕ) : List TriangulationGroup :=
  let uniq := (jsSetDedupNat p.2).map (fun j => g.«matches».getD j default)
  if s.minimumMatches ≤ uniq.length then
    let startP := maxStartOf uniq
    let endP := minEndOf uniq
    if startP < endP then
      let total := totalSizeOf uniq
      let tms := uniq.foldl (fun acc m =>
        acc ++ (m.treeMatchInfo.getD []).filter
          (fun tm => tm.suggestedAncestors.contains p.1)) []
      [{ chromosome := g.chromosome, startPosition := startP, endPosition := endP,
         «matches» := uniq, averageSize := total / (uniq.length : ℚ),
         totalSize := total, confidenceScore := 0,
         commonAncestors := some [p.1],
         treeMatches := if tms.isEmpty then none else some tms }]
    else []
  else []

/-- Split one overlap group by its distinct suggested ancestors; a group whose
members reference no ancestor passes through unchanged. -/
def splitOneGroup (g : TriangulationGroup) (s : TriangulationSettings) :
    List TriangulationGroup :=
  let anc := collectAncestors g.«matches»
  if anc.isEmpty then [g]
  else (anc.map (subGroupFor g s)).join

/-- `splitGroupsBySingleCommonAncestor`. -/
def splitGroupsBySingleCommonAncestor (initialGroups : List TriangulationGroup)
    (s : TriangulationSettings) : List TriangulationGroup :=
  (initialGroups.map (fun g => splitOneGroup g s)).join


/-! ## Relationship prediction (`predictRelationship`) -/

/-- The fixed relationship table (`RELATIONSHIP_DATA`), in declaration order
(JS `Object.entries` iterates string keys in insertion order). -/
def RELATIONSHIP_DATA : List (String × RelBand) :=
  [("Parent/Child", ⟨3400, 3720, 0.99⟩),
   ("Full Sibling", ⟨2200, 3400, 0.95⟩),
   ("Half Sibling", ⟨1300, 2300, 0.85⟩),
   ("Grandparent/Grandchild", ⟨1200, 2300, 0.90⟩),
   ("Aunt/Uncle/Niece/Nephew", ⟨1200, 2300, 0.80⟩),
   ("1st Cousin", ⟨550, 1300, 0.75⟩),
   ("1st Cousin Once Removed", ⟨400, 1000, 0.70⟩),
   ("2nd Cousin", ⟨200, 600, 0.65⟩),
   ("2nd Cousin Once Removed", ⟨150, 500, 0.60⟩),
   ("3rd Cousin", ⟨75, 200, 0.55⟩),
   ("3rd Cousin Once Removed", ⟨50, 150, 0.50⟩),
   ("4th Cousin", ⟨20, 100, 0.45⟩),
   ("5th Cousin", ⟨10, 50, 0.40⟩),
   ("6th Cousin", ⟨5, 25, 0.35⟩),
   ("7th Cousin", ⟨0, 15, 0.30⟩),
   ("8th Cousin", ⟨0, 10, 0.25⟩),
   ("9th Cousin", ⟨0, 5, 0.20⟩),
   ("10th Cousin", ⟨0, 3, 0.15⟩)]

/-- Whether a band's [min,max] range contains the total shared cM value. -/
def bandContains (t : ℚ) (e : String × RelBand) : Prop :=
  e.2.bmin ≤ t ∧ t ≤ e.2.bmax

instance (t : ℚ) (e : String × RelBand) : Decidable (bandContains t e) := by
  unfold bandContains; infer_instance

/-- The selection loop of `predictRelationship`: state is the pair of mutable
variables `(bestMatch, bestScore)`. -/
def predictRelLoop (t : ℚ) : List (String × RelBand) →
    (String × RelBand) × ℚ → (String × RelBand) × ℚ
  | [], st => st
  | e :: rest, (best, bestScore) =>
    if bandContains t e ∧ bestScore < e.2.probability then
      predictRelLoop t rest (e, e.2.probability)
    else predictRelLoop t rest (best, bestScore)

/-- The band entry chosen by `predictRelationship` for a total shared cM. -/
def chosenEntry (totalCM : ℚ) : String × RelBand :=
  (predictRelLoop totalCM RELATIONSHIP_DATA
    (RELATIONSHIP_DATA.headD ("", ⟨0, 0, 0⟩), 0)).1

/-- `predictRelationship`. -/
def predictRelationship (totalCM : ℚ) : RelationshipPrediction :=
  let best := chosenEntry totalCM
  let confidence :=
    if (0.8 : ℚ) ≤ best.2.probability then "high"
    else if (0.6 : ℚ) ≤ best.2.probability then "medium"
    else "low"
  { relationship := best.1, probability := best.2.probability, confidence := confidence }

/-- The bands of the fixed table whose range contains the value. -/
def containingBands (t : ℚ) : List (String × RelBand) :=
  RELATIONSHIP_DATA.filter (fun e => decide (bandContains t e))

/-! ## Confidence scoring (`calculateConfidenceScore`, `calculateAverageOverlap`) -/

/-- `calculateConfidenceScore`: weighted sum of four factors normalized to
[0,1], times 100, rounded. -/
def calculateConfidenceScore (averageSize overlapPercentage matchCount totalCM : ℚ) : ℤ :=
  let sizeScore := min (averageSize / 20) 1
  let overlapScore := overlapPercentage / 100
  let matchScore := min (matchCount / 10) 1
  let totalScore := min (totalCM / 1000) 1
  jsRound ((sizeScore * 0.3 + overlapScore * 0.2 + matchScore * 0.3 + totalScore * 0.2) * 100)

/-- All index-ordered pairs of a member list (the `i < j` double loop). -/
def allPairs : List DNAMatch → List (DNAMatch × DNAMatch)
  | [] => []
  | x :: xs => xs.map (fun y => (x, y)) ++ allPairs xs

/-- Whether a pair of members has strictly positive coordinate overlap. -/
def pairOverlapPos (p : DNAMatch × DNAMatch) : Prop :=
  max p.1.startPosition p.2.startPosition < min p.1.endPosition p.2.endPosition

instance (p : DNAMatch × DNAMatch) : Decidable (pairOverlapPos p) := by
  unfold pairOverlapPos; infer_instance

/-- A pair's overlap percentage: overlap length over the smaller of the two
spans, times 100. -/
def pairOverlapPct (p : DNAMatch × DNAMatch) : ℚ :=
  ((min p.1.endPosition p.2.endPosition - max p.1.startPosition p.2.startPosition : ℤ) : ℚ) /
    ((min (p.1.endPosition - p.1.startPosition)
      (p.2.endPosition - p.2.startPosition) : ℤ) : ℚ) * 100

/-- `calculateAverageOverlap`: 100 for fewer than two members; otherwise the
double loop accumulates the overlap percentage of each positively overlapping
pair and averages over those pairs only, returning 100 when none overlaps. -/
def calculateAverageOverlap (ms : List DNAMatch) : ℚ :=
  if ms.length < 2 then 100
  else
    let st := (allPairs ms).foldl (fun (acc : ℚ × ℕ) p =>
      if pairOverlapPos p then (acc.1 + pairOverlapPct p, acc.2 + 1) else acc) (0, 0)
    if 0 < st.2 then st.1 / (st.2 : ℚ) else 100

/-- The confidence score the orchestrator attaches to a group with member
list `ms`: `calculateConfidenceScore(group.averageSize,
calculateAverageOverlap(group.matches), group.matches.length, totalCM)`,
where `averageSize = totalSize / memberCount` from group creation and
`totalCM` is the recomputed member size sum. -/
def pipelineConfidenceScore (ms : List DNAMatch) : ℤ :=
  calculateConfidenceScore (totalSizeOf ms / (ms.length : ℚ))
    (calculateAverageOverlap ms) (ms.length : ℚ) (totalSizeOf ms)

/-- The score formula as the specification states it: the overlap factor is
the mean pairwise overlap percentage across *all* pairs of members. -/
def confidenceSpecScore (ms : List DNAMatch) : ℤ :=
  let n : ℚ := (ms.length : ℚ)
  let totalCM := totalSizeOf ms
  let meanPct := ((allPairs ms).map pairOverlapPct).sum / ((allPairs ms).length : ℚ)
  jsRound (100 * (0.3 * min (totalCM / n / 20) 1 + 0.2 * (meanPct / 100) +
    0.3 * min (n / 10) 1 + 0.2 * min (totalCM / 1000) 1))

/-! ## Name canonicalization (`canonicalizeName`)

The JS regexes work over the word-character class `\w = [A-Za-z0-9_]` with
`\b` word boundaries.  Since every token of the two replaces consists solely
of word characters, a `\btoken\b` match is exactly a maximal word-character
run equal to the token (the regex scan also consumes one following dot via
`\.?`), so the two global replaces are modelled as run-level scans. -/

/-- The JS `\s` whitespace class (space, tab, LF, CR, VT, FF). -/
def isWs (c : Char) : Bool :=
  c = ' ' || c = '\t' || c = '\n' || c = '\r' || c = '\x0b' || c = '\x0c'

/-- The JS `\w` word-character class `[A-Za-z0-9_]`. -/
def isWordChar (c : Char) : Bool := c.isAlphanum || c = '_'

/-- `toLowerCase()` character-wise. -/
def jsToLower (l : List Char) : List Char := l.map Char.toLower

/-- Drop trailing whitespace (structural helper for `trim()`). -/
def trimRight : List Char → List Char
  | [] => []
  | c :: cs =>
    match trimRight cs with
    | [] => if isWs c then [] else [c]
    | r => c :: r

/-- `trim()`: drop leading and trailing whitespace. -/
def trimWs (l : List Char) : List Char := trimRight (l.dropWhile isWs)

/-- `replace(/\s+/g, ' ')`: collapse whitespace runs to single spaces; the
boolean records whether the previous character was whitespace. -/
def collapseWsAux : Bool → List Char → List Char
  | _, [] => []
  | afterWs, c :: cs =>
    if isWs c then
      if afterWs then collapseWsAux true cs else ' ' :: collapseWsAux true cs
    else c :: collapseWsAux false cs

/-- `replace(/\s+/g, ' ')`. -/
def collapseWs (l : List Char) : List Char := collapseWsAux false l

/-- `split(',')`. -/
def splitOnComma : List Char → List (List Char)
  | [] => [[]]
  | c :: cs =>
    if c = ',' then [] :: splitOnComma cs
    else
      match splitOnComma cs with
      | [] => [[c]]
      | p :: ps => (c :: p) :: ps

/-- The `"Last, First" → "First Last"` rewrite: applied when the string
contains a comma and splits into exactly two parts. -/
def commaRewrite (l : List Char) : List Char :=
  if l.contains ',' then
    let parts := (splitOnComma l).map trimWs
    if parts.length = 2 then trimWs (parts.getD 1 [] ++ ' ' :: parts.getD 0 [])
    else l
  else l

/-- The generational-suffix tokens `jr|sr|ii|iii|iv`. -/
def suffixTokens : List (List Char) :=
  [['j','r'], ['s','r'], ['i','i'], ['i','i','i'], ['i','v']]

/-- The courtesy-title tokens `mr|mrs|ms|dr|prof`. -/
def titleTokens : List (List Char) :=
  [['m','r'], ['m','r','s'], ['m','s'], ['d','r'], ['p','r','o','f']]

/-- One global `replace(/\b(tok|…)\b\.?/g, '')` pass: a match occurs exactly
at each maximal word-character run equal to one of the (all word-character)
tokens, and also consumes one directly following `'.'`. -/
def removeTokensRun (toks : List (List Char)) : List Char → List Char
  | [] => []
  | c :: cs =>
    if isWordChar c then
      let run := c :: cs.takeWhile isWordChar
      let tail := cs.dropWhile isWordChar
      if toks.contains run then
        removeTokensRun toks (if tail.head? = some '.' then tail.tail else tail)
      else run ++ removeTokensRun toks tail
    else c :: removeTokensRun toks cs
termination_by l => l.length
decreasing_by
  · have h1 : (cs.dropWhile isWordChar).length ≤ cs.length :=
      (List.dropWhile_sublist isWordChar).length_le
    split <;> simp only [List.length_cons, List.length_tail] <;> omega
  · have h1 : (cs.dropWhile isWordChar).length ≤ cs.length :=
      (List.dropWhile_sublist isWordChar).length_le
    simp only [List.length_cons]
    omega
  · simp only [List.length_cons]
    omega

/-- `canonicalizeName` on character lists: lowercase, trim, collapse
whitespace; rewrite `"Last, First"`; strip generational suffixes, then
courtesy titles; clean up spaces. -/
def canonicalizeChars (l : List Char) : List Char :=
  let c1 := collapseWs (trimWs (jsToLower l))
  let c2 := commaRewrite c1
  let c3 := removeTokensRun suffixTokens c2
  let c4 := removeTokensRun titleTokens c3
  trimWs (collapseWs c4)

/-- `canonicalizeName` (the empty string short-circuit of the source is
absorbed: every stage maps the empty list to itself). -/
def canonicalizeName (s : String) : String := ⟨canonicalizeChars s.data⟩

/-- The maximal word-character runs of a string, in order. -/
def wordRuns : List Char → List (List Char)
  | [] => []
  | c :: cs =>
    if isWordChar c then
      (c :: cs.takeWhile isWordChar) :: wordRuns (cs.dropWhile isWordChar)
    else wordRuns cs
termination_by l => l.length
decreasing_by
  · have h1 : (cs.dropWhile isWordChar).length ≤ cs.length :=
      (List.dropWhile_sublist isWordChar).length_le
    simp only [List.length_cons]
    omega
  · simp only [List.length_cons]
    omega

/-! ## Deduplication and merge (`deduplicateAndMergeMatches`) -/

/-- A raw parsed segment record: a segment plus its source file
(`RawDNAMatch`). -/
structure RawDNAMatch extends DNAMatch where
  sourceFile : String
deriving DecidableEq, Repr

/-- JS string truthiness for an optional string: `undefined` and `''` are
falsy. -/
def strTruthy : Option String → Bool
  | none => false
  | some s => !(s.isEmpty)

/-- JS `Set.add` for strings: append if absent, insertion order kept. -/
def jsSetAddStr (l : List String) (x : String) : List String :=
  if x ∈ l then l else l ++ [x]

/-- The note singleton a record contributes (`match.notes ? [match.notes] :
[]`, where `''` is falsy). -/
def notesOf (m : RawDNAMatch) : List String :=
  if strTruthy m.notes then [m.notes.getD ""] else []

/-- The merged per-canonical-name profile (`MatchProfile`); JS `Set`s are
lists in insertion order. -/
structure MatchProfile where
  canonicalName : String
  displayName : String
  nameVariations : List String
  segments : List RawDNAMatch
  yHaplogroup : Option String
  mtHaplogroup : Option String
  ancestralSurnames : List String
  locations : List String
  notes : List String
  sourceFiles : List String
deriving DecidableEq, Repr

/-- The fresh profile installed at first contact with a canonical name. -/
def initProfile (canonical : String) (m : RawDNAMatch) : MatchProfile :=
  { canonicalName := canonical,
    displayName := m.matchName,
    nameVariations := [m.matchName],
    segments := [],
    yHaplogroup := m.yHaplogroup,
    mtHaplogroup := m.mtHaplogroup,
    ancestralSurnames := (m.ancestralSurnames.getD []).foldl jsSetAddStr [],
    locations := (m.locations.getD []).foldl jsSetAddStr [],
    notes := notesOf m,
    sourceFiles := [m.sourceFile] }

/-- The per-record mutation block of the build loop: push the segment, add
the name variation and source file, keep the first truthy haplogroups, and
union the multi-value fields. -/
def mergeMatchIntoProfile (p : MatchProfile) (m : RawDNAMatch) : MatchProfile :=
  { p with
    segments := p.segments ++ [m],
    nameVariations := jsSetAddStr p.nameVariations m.matchName,
    sourceFiles := jsSetAddStr p.sourceFiles m.sourceFile,
    yHaplogroup := if !(strTruthy p.yHaplogroup) && strTruthy m.yHaplogroup then
      m.yHaplogroup else p.yHaplogroup,
    mtHaplogroup := if !(strTruthy p.mtHaplogroup) && strTruthy m.mtHaplogroup then
      m.mtHaplogroup else p.mtHaplogroup,
    ancestralSurnames := (m.ancestralSurnames.getD []).foldl jsSetAddStr p.ancestralSurnames,
    locations := (m.locations.getD []).foldl jsSetAddStr p.locations,
    notes := if strTruthy m.notes then jsSetAddStr p.notes (m.notes.getD "") else p.notes }

/-- One step of the `profileMap` build loop: create the profile if the
canonical name is new, then merge the record into it. -/
def buildStep (acc : List (String × MatchProfile)) (m : RawDNAMatch) :
    List (String × MatchProfile) :=
  let key := canonicalizeName m.matchName
  if (acc.lookup key).isSome then
    acc.map (fun q => if q.1 = key then (q.1, mergeMatchIntoProfile q.2 m) else q)
  else acc ++ [(key, mergeMatchIntoProfile (initProfile key m) m)]

/-- Step 1 of `deduplicateAndMergeMatches`: the canonicalization map, in key
insertion order. -/
def buildProfiles (rawMatches : List RawDNAMatch) : List (String × MatchProfile) :=
  rawMatches.foldl buildStep []

/-- The raw records whose canonical name is `key`, in input order. -/
def recordsFor (l : List RawDNAMatch) (key : String) : List RawDNAMatch :=
  l.filter (fun m => canonicalizeName m.matchName = key)

/-! ## CSV row parsing (`parseMatchesFromCSV`) and the `processTriangulation`
file loop -/

/-- A parsed CSV row: header–value pairs in column order (`CSVRow`). -/
abbrev CSVRow := List (String × String)

/-- `row[k]`: JS object access, `undefined` when the column is absent. -/
def rowGet (r : CSVRow) (k : String) : Option String := r.lookup k

/-- JS `a || b` on optional strings (`undefined` and `''` are falsy). -/
def jsOrOpt (a b : Option String) : Option String :=
  match a with
  | some s => if s.isEmpty then b else some s
  | none => b

/-- JS `String.prototype.trim`. -/
def jsTrim (s : String) : String := ⟨trimWs s.data⟩

/-- JS `String.prototype.toLowerCase` on strings. -/
def jsStrLower (s : String) : String := ⟨jsToLower s.data⟩

/-- `replace(/,/g, '')`. -/
def stripCommas (s : String) : String := ⟨s.data.filter (fun c => !(c = ','))⟩

/-- The `^\d+$` test. -/
def isAllDigits (s : String) : Bool := !s.isEmpty && s.data.all (fun c => c.isDigit)

/-- A separator of the `/[,;|]/` splits. -/
def isSep (c : Char) : Bool := c = ',' || c = ';' || c = '|'

/-- `split(/[,;|]/)` on character lists. -/
def splitOnSeps : List Char → List (List Char)
  | [] => [[]]
  | c :: cs =>
    if isSep c then [] :: splitOnSeps cs
    else
      match splitOnSeps cs with
      | [] => [[c]]
      | p :: ps => (c :: p) :: ps

/-- `split(/[,;|]/).map(trim).filter(nonempty)` for surname/location lists. -/
def splitMulti (s : String) : List String :=
  ((splitOnSeps s.data).map (fun l => jsTrim ⟨l⟩)).filter (fun x => !x.isEmpty)

/-- The value of a nonempty digit run. -/
def natOfDigits (l : List Char) : ℕ :=
  l.foldl (fun acc c => acc * 10 + (c.toNat - 48)) 0

/-- The leading digit run of a character list, if any. -/
def digitsPrefixVal (l : List Char) : Option ℕ :=
  let ds := l.takeWhile (fun c => c.isDigit)
  if ds.isEmpty then none else some (natOfDigits ds)

/-- JS `parseInt` after trimming: optional sign then a digit prefix; `NaN`
(`none`) otherwise; `parseInt(undefined)` is `NaN`. -/
def jsParseInt : Option String → Option ℤ
  | none => none
  | some s =>
    match s.data with
    | '-' :: rest => (digitsPrefixVal rest).map (fun n => -(n : ℤ))
    | '+' :: rest => (digitsPrefixVal rest).map (fun n => (n : ℤ))
    | l => (digitsPrefixVal l).map (fun n => (n : ℤ))

/-- The value of `digits[.digits]`, if either part is nonempty. -/
def floatOfChars (l : List Char) : Option ℚ :=
  let ip := l.takeWhile (fun c => c.isDigit)
  let rest := l.dropWhile (fun c => c.isDigit)
  match rest with
  | '.' :: rest2 =>
    let fp := rest2.takeWhile (fun c => c.isDigit)
    if ip.isEmpty && fp.isEmpty then none
    else some ((natOfDigits (ip ++ fp) : ℚ) / ((10 : ℚ) ^ fp.length))
  | _ => if ip.isEmpty then none else some ((natOfDigits ip : ℚ))

/-- JS `parseFloat` after trimming. -/
def jsParseFloat : Option String → Option ℚ
  | none => none
  | some s =>
    match s.data with
    | '-' :: rest => (floatOfChars rest).map (fun q => -q)
    | '+' :: rest => floatOfChars rest
    | l => floatOfChars l

/-- The raw match name extracted from a row: the mapped `matchName`, the
name-field fallbacks, then the first part of a multi-name value. -/
def extractRawName (row : CSVRow) : String :=
  let mn0 := (rowGet row "matchName").getD ""
  let mn1 :=
    if mn0.isEmpty then
      let firstName := (jsOrOpt (rowGet row "First Name") (rowGet row "firstName")).getD ""
      let lastName := (jsOrOpt (rowGet row "Last Name") (rowGet row "lastName")).getD ""
      let fullName := (jsOrOpt (rowGet row "Full Name")
        (jsOrOpt (rowGet row "Name") (rowGet row "Match Names"))).getD ""
      if !fullName.isEmpty then fullName
      else if !firstName.isEmpty || !lastName.isEmpty then
        jsTrim (firstName ++ " " ++ lastName)
      else ""
    else mn0
  if !mn1.isEmpty && (mn1.data.contains ',' || mn1.data.contains ';' || mn1.data.contains '|') then
    jsTrim ⟨mn1.data.takeWhile (fun c => !(isSep c))⟩
  else mn1

/-- The suspicious-name resolution: numeric and very short names become
descriptive placeholders naming the original and the file, an absent name
becomes a generic row-numbered identifier; each records one issue. -/
def resolveName (fileName : String) (rowIndex : ℕ) (raw : String) :
    String × List String :=
  if !raw.isEmpty then
    if isAllDigits raw then
      let newName := "Match " ++ raw ++ " (from " ++ fileName ++ ")"
      (newName, ["Row " ++ toString (rowIndex + 1) ++ ": Numeric match name \"" ++ raw ++
        "\" converted to \"" ++ newName ++ "\""])
    else if raw.length < 2 then
      ("Match \"" ++ raw ++ "\" (from " ++ fileName ++ ")",
        ["Row " ++ toString (rowIndex + 1) ++ ": Short match name \"" ++ raw ++
          "\" - please verify"])
    else (raw, [])
  else
    ("Match " ++ toString (rowIndex + 1) ++ " (from " ++ fileName ++ ")",
      ["Row " ++ toString (rowIndex + 1) ++ ": No match name found - using generic identifier"])

/-- One row of the parse loop: name resolution, field extraction and the
validation gate; issues are recorded whether or not the row validates. -/
def parseRow (fileName : String) (s : TriangulationSettings) (rowIndex : ℕ)
    (row : CSVRow) : List DNAMatch × List String :=
  let resolved := resolveName fileName rowIndex (extractRawName row)
  let name := resolved.1
  let chromosomeField := jsOrOpt (rowGet row "chromosome") (rowGet row "Chromosome")
  let startField := jsOrOpt (rowGet row "startPosition")
    (jsOrOpt (rowGet row "Start Location") (rowGet row "Start Position"))
  let endField := jsOrOpt (rowGet row "endPosition")
    (jsOrOpt (rowGet row "End Location") (rowGet row "End Position"))
  let sizeField := jsOrOpt (rowGet row "sizeCM")
    (jsOrOpt (rowGet row "Overlap cM")
      (jsOrOpt (rowGet row "Shared DNA") (rowGet row "Longest Block")))
  let snpsField := jsOrOpt (rowGet row "matchingSNPs")
    (jsOrOpt (rowGet row "Markers Tested") (rowGet row "SNPs"))
  let yH := jsOrOpt (rowGet row "yHaplogroup") (jsOrOpt (rowGet row "Y-DNA Haplogroup")
    (jsOrOpt (rowGet row "Y Haplogroup") (rowGet row "Paternal Haplogroup")))
  let mtH := jsOrOpt (rowGet row "mtHaplogroup") (jsOrOpt (rowGet row "mtDNA Haplogroup")
    (jsOrOpt (rowGet row "mt Haplogroup") (rowGet row "Maternal Haplogroup")))
  let ancestral := jsOrOpt (rowGet row "ancestralSurnames")
    (jsOrOpt (rowGet row "Ancestral Surnames") (rowGet row "Surnames"))
  let locs := jsOrOpt (rowGet row "locations")
    (jsOrOpt (rowGet row "Paternal Country of Origin") (rowGet row "Paternal Origin"))
  let nts := jsOrOpt (rowGet row "notes") (jsOrOpt (rowGet row "Notes") (rowGet row "Comments"))
  let snps := if strTruthy snpsField then
    jsParseInt (snpsField.map (fun v => jsTrim (stripCommas v))) else none
  match jsParseInt (chromosomeField.map jsTrim),
      jsParseInt (startField.map (fun v => jsTrim (stripCommas v))),
      jsParseInt (endField.map (fun v => jsTrim (stripCommas v))),
      jsParseFloat (sizeField.map jsTrim) with
  | some c, some sp, some ep, some z =>
    if !name.isEmpty ∧ 1 ≤ c ∧ c ≤ 23 ∧ 0 < sp ∧ sp < ep ∧ s.minimumSize ≤ z then
      ([{ matchName := name, chromosome := c, startPosition := sp, endPosition := ep,
          sizeCM := z, matchingSNPs := snps,
          yHaplogroup := if strTruthy yH then yH.map jsTrim else none,
          mtHaplogroup := if strTruthy mtH then mtH.map jsTrim else none,
          ancestralSurnames := if strTruthy ancestral then
            (ancestral.map splitMulti) else none,
          locations := if strTruthy locs then (locs.map splitMulti) else none,
          notes := if strTruthy nts then nts.map jsTrim else none }], resolved.2)
    else ([], resolved.2)
  | _, _, _, _ => ([], resolved.2)

/-- The standardized required fields. -/
def requiredFields : List String := ["chromosome", "startPosition", "endPosition", "sizeCM"]

/-- The required-fields check against the first row: exact key or
case-insensitive substring. -/
def hasRequiredFields (sampleRow : CSVRow) : Bool :=
  let availableFields := sampleRow.map Prod.fst
  requiredFields.all (fun field =>
    availableFields.contains field ||
    availableFields.any (fun available =>
      decide (List.IsInfix (jsStrLower field).data (jsStrLower available).data)))

/-- `parseMatchesFromCSV`: empty data or a failed schema check return no
matches and no issues without aborting; otherwise every row is parsed. -/
def parseMatchesFromCSV (csvData : List CSVRow) (fileName : String)
    (s : TriangulationSettings) : List DNAMatch × List String :=
  match csvData.head? with
  | none => ([], [])
  | some sampleRow =>
    if hasRequiredFields sampleRow then
      let results := csvData.enum.map (fun p => parseRow fileName s p.1 p.2)
      ((results.map Prod.fst).flatten, (results.map Prod.snd).flatten)
    else ([], [])

/-- The fatal zero-data message of `processTriangulation`. -/
def noValidDataMsg : String :=
  "No valid DNA segment data found in uploaded files. Please check that your CSV files contain the required columns: Chromosome, Start Location, End Location, and either Overlap cM or Shared DNA."

/-- The per-file loop of `processTriangulation`: each source is a file name
with its `parseCSV` outcome; a read failure aborts at once with the file
name, a parsed file contributes its marked matches and its issues. -/
def collectFiles (s : TriangulationSettings) :
    List (String × Except String (List CSVRow)) →
    Except String (List RawDNAMatch × List String)
  | [] => .ok ([], [])
  | (name, res) :: rest =>
    match res with
    | .error e => .error ("Error processing " ++ name ++ ": " ++ e)
    | .ok rows =>
      let pr := parseMatchesFromCSV rows name s
      match collectFiles s rest with
      | .error e => .error e
      | .ok (ms, is) => .ok ((pr.1.map (fun m => { toDNAMatch := m, sourceFile := name })) ++ ms,
          pr.2 ++ is)

/-- The aborting stage of `processTriangulation` (lines 60–93 of the source):
the file loop, then the fatal zero-data check; name issues are surfaced as a
warning only.  Every later stage (dedup, grouping, scoring, splitting) is a
total computation that never throws, so the abort behaviour of the whole run
is this function, with the surviving raw matches and issues as its payload. -/
def processTriangulation (files : List (String × Except String (List CSVRow)))
    (s : TriangulationSettings) : Except String (List RawDNAMatch × List String) :=
  match collectFiles s files with
  | .error e => .error e
  | .ok (raw, issues) =>
    if raw.isEmpty then .error noValidDataMsg
    else .ok (raw, issues)

/-- All characters are fixed points of `Char.toLower`. -/
def lowFix (l : List Char) : Prop := ∀ c ∈ l, Char.toLower c = c

/-- Whitespace normal form: every whitespace character is a single `' '`
not followed by further whitespace. -/
def wsTame : List Char → Bool
  | [] => true
  | c :: cs =>
    (if isWs c then c = ' ' && cs.head?.all (fun d => !isWs d) else true) && wsTame cs

/-! ## Concrete example data -/

/-- Example segment A[10,50] on chromosome 1. -/
def segA : DNAMatch :=
  { matchName := "A", chromosome := 1, startPosition := 10, endPosition := 50, sizeCM := 10 }

/-- Example segment B[20,60] on chromosome 1. -/
def segB : DNAMatch :=
  { matchName := "B", chromosome := 1, startPosition := 20, endPosition := 60, sizeCM := 10 }

/-- Example segment C[15,55] on chromosome 1. -/
def segC : DNAMatch :=
  { matchName := "C", chromosome := 1, startPosition := 15, endPosition := 55, sizeCM := 10 }

/-- Example segment D[1000,1100] on chromosome 1. -/
def segD : DNAMatch :=
  { matchName := "D", chromosome := 1, startPosition := 1000, endPosition := 1100, sizeCM := 10 }

/-- A member referencing both ancestors "Jane Doe" and "John Roe". -/
def dualAncestorMatch1 : DNAMatch :=
  { matchName := "M1", chromosome := 1, startPosition := 0, endPosition := 100, sizeCM := 10,
    treeMatchInfo := some [⟨"M1", [], [], ["Jane Doe", "John Roe"]⟩] }

/-- A second member referencing the same two ancestors. -/
def dualAncestorMatch2 : DNAMatch :=
  { matchName := "M2", chromosome := 1, startPosition := 10, endPosition := 110, sizeCM := 10,
    treeMatchInfo := some [⟨"M2", [], [], ["Jane Doe", "John Roe"]⟩] }

/-- A group of the two dual-ancestor members. -/
def dualAncestorGroup : TriangulationGroup :=
  { chromosome := 1, startPosition := 10, endPosition := 100,
    «matches» := [dualAncestorMatch1, dualAncestorMatch2],
    averageSize := 10, totalSize := 20, confidenceScore := 0 }

/-- Settings with `minimumMatches = 2` for the splitting examples. -/
def settingsMin2 : TriangulationSettings :=
  { DEFAULT_SETTINGS with minimumMatches := 2 }

/-- A member referencing only the ancestor "Jane Doe", span [10,50]. -/
def janeMatchA : DNAMatch :=
  { matchName := "JA", chromosome := 1, startPosition := 10, endPosition := 50, sizeCM := 10,
    treeMatchInfo := some [⟨"JA", [], [], ["Jane Doe"]⟩] }

/-- A second member referencing only "Jane Doe", span [20,60]. -/
def janeMatchB : DNAMatch :=
  { matchName := "JB", chromosome := 1, startPosition := 20, endPosition := 60, sizeCM := 10,
    treeMatchInfo := some [⟨"JB", [], [], ["Jane Doe"]⟩] }

/-- A member referencing only the ancestor "John Roe", span [15,55]. -/
def johnMatchC : DNAMatch :=
  { matchName := "JC", chromosome := 1, startPosition := 15, endPosition := 55, sizeCM := 10,
    treeMatchInfo := some [⟨"JC", [], [], ["John Roe"]⟩] }

/-- A group of three members: two reference "Jane Doe", one "John Roe". -/
def janeJohnGroup : TriangulationGroup :=
  { chromosome := 1, startPosition := 20, endPosition := 50,
    «matches» := [janeMatchA, janeMatchB, johnMatchC],
    averageSize := 10, totalSize := 30, confidenceScore := 0 }

/-- A raw record named "al" from file "a.csv" with surname "Miller". -/
def rawAlpha : RawDNAMatch :=
  { matchName := "al", chromosome := 1, startPosition := 0, endPosition := 10, sizeCM := 5,
    ancestralSurnames := some ["Miller"], sourceFile := "a.csv" }

/-- A raw record named "al" from file "b.csv" with surname "Baker". -/
def rawBeta : RawDNAMatch :=
  { matchName := "al", chromosome := 1, startPosition := 20, endPosition := 30, sizeCM := 5,
    ancestralSurnames := some ["Baker"], sourceFile := "b.csv" }

/-- The profile for key "al" when `rawAlpha` is merged first. -/
def pAl1 : MatchProfile :=
  { canonicalName := "al", displayName := "al", nameVariations := ["al"],
    segments := [rawAlpha, rawBeta], yHaplogroup := none, mtHaplogroup := none,
    ancestralSurnames := ["Miller", "Baker"], locations := [], notes := [],
    sourceFiles := ["a.csv", "b.csv"] }

/-- The profile for key "al" when `rawBeta` is merged first. -/
def pAl2 : MatchProfile :=
  { canonicalName := "al", displayName := "al", nameVariations := ["al"],
    segments := [rawBeta, rawAlpha], yHaplogroup := none, mtHaplogroup := none,
    ancestralSurnames := ["Baker", "Miller"], locations := [], notes := [],
    sourceFiles := ["b.csv", "a.csv"] }

/-- A row with unrelated headers: the schema check fails. -/
def badRow : CSVRow := [("foo", "1"), ("bar", "2")]

/-- A valid segment row for "Bob". -/
def goodRow : CSVRow :=
  [("matchName", "Bob"), ("chromosome", "1"), ("startPosition", "100"),
   ("endPosition", "200"), ("sizeCM", "10")]

/-- The match parsed from `goodRow`. -/
def bobMatch : DNAMatch :=
  { matchName := "Bob", chromosome := 1, startPosition := 100, endPosition := 200,
    sizeCM := 10 }

/-- A valid row whose match name is the numeral "7". -/
def numRow : CSVRow :=
  [("matchName", "7"), ("chromosome", "1"), ("startPosition", "100"),
   ("endPosition", "200"), ("sizeCM", "10")]

/-- Soundness of the ancestor map: every recorded index points into the member
list and its member references the entry's ancestor. -/
def ancSound (ms : List DNAMatch) (l : List (String × List ℕ)) : Prop :=
  ∀ p ∈ l, ∀ j ∈ p.2, j < ms.length ∧
    ∃ tm ∈ (ms.getD j default).treeMatchInfo.getD [], p.1 ∈ tm.suggestedAncestors

/-- Index `i` references ancestor `a` in the member list `ms`. -/
def ancRef (ms : List DNAMatch) (a : String) (i : ℕ) : Prop :=
  i < ms.length ∧
    ∃ tm ∈ (ms.getD i default).treeMatchInfo.getD [], a ∈ tm.suggestedAncestors

/-- A candidate that starts after the seed ends can never be accepted. -/
theorem not_accepts_of_startsAfter {base t : DNAMatch} {thr : ℚ}
    (h : base.endPosition < t.startPosition) : ¬ acceptsCandidate base t thr := by
  intro hacc
  have h1 := hacc.1
  have h2 : min base.endPosition t.endPosition ≤ base.endPosition := min_le_left _ _
  have h3 : t.startPosition ≤ max base.startPosition t.startPosition := le_max_right _ _
  omega

/-- Any accepted candidate index comes from the scanned list and is
unprocessed. -/
theorem scanCandidates_mem {ms : List DNAMatch} {base : DNAMatch} {thr : ℚ}
    {processed : List ℕ} {js : List ℕ} {x : ℕ}
    (hx : x ∈ scanCandidates ms base thr processed js) : x ∈ js ∧ x ∉ processed := by
  induction js with
  | nil => simp [scanCandidates] at hx
  | cons j js ih =>
    by_cases hp : j ∈ processed
    · rw [scanCandidates, if_pos hp] at hx
      have := ih hx
      exact ⟨List.mem_cons_of_mem _ this.1, this.2⟩
    · rw [scanCandidates, if_neg hp] at hx
      by_cases hb : base.endPosition < (ms.getD j default).startPosition
      · rw [if_pos hb] at hx; simp at hx
      · rw [if_neg hb] at hx
        by_cases ha : acceptsCandidate base (ms.getD j default) thr
        · rw [if_pos ha] at hx
          rcases List.mem_cons.mp hx with h | h
          · exact ⟨h ▸ List.mem_cons_self _ _, h ▸ hp⟩
          · have := ih h
            exact ⟨List.mem_cons_of_mem _ this.1, this.2⟩
        · rw [if_neg ha] at hx
          have := ih hx
          exact ⟨List.mem_cons_of_mem _ this.1, this.2⟩

/-- The accepted candidates form a sublist of the scanned candidates. -/
theorem scanCandidates_sublist (ms : List DNAMatch) (base : DNAMatch) (thr : ℚ)
    (processed : List ℕ) (js : List ℕ) :
    (scanCandidates ms base thr processed js).Sublist js := by
  induction js with
  | nil => simp [scanCandidates]
  | cons j js ih =>
    by_cases hp : j ∈ processed
    · rw [scanCandidates, if_pos hp]; exact ih.cons _
    · rw [scanCandidates, if_neg hp]
      by_cases hb : base.endPosition < (ms.getD j default).startPosition
      · rw [if_pos hb]; exact List.nil_sublist _
      · rw [if_neg hb]
        by_cases ha : acceptsCandidate base (ms.getD j default) thr
        · rw [if_pos ha]; exact ih.cons₂ _
        · rw [if_neg ha]; exact ih.cons _

/-- On a candidate list sorted ascending by start position, the scan — which
stops at the first candidate starting after the seed's end — accepts exactly
the unprocessed candidates passing the overlap test against the seed. -/
theorem scanCandidates_sorted_eq (ms : List DNAMatch) (base : DNAMatch) (thr : ℚ)
    (processed : List ℕ) (js : List ℕ)
    (hs : js.Pairwise (fun a b =>
      (ms.getD a default).startPosition ≤ (ms.getD b default).startPosition)) :
    scanCandidates ms base thr processed js =
      js.filter (fun j => decide (j ∉ processed ∧
        acceptsCandidate base (ms.getD j default) thr)) := by
  induction js with
  | nil => simp [scanCandidates]
  | cons j js ih =>
    have htail := List.Pairwise.sublist (List.sublist_cons_self j js) hs
    have hhead := List.pairwise_cons.mp hs |>.1
    by_cases hp : j ∈ processed
    · rw [scanCandidates, if_pos hp, List.filter_cons, if_neg (by simp [hp])]
      exact ih htail
    · rw [scanCandidates, if_neg hp]
      by_cases hb : base.endPosition < (ms.getD j default).startPosition
      · rw [if_pos hb]
        have hall : ∀ x ∈ j :: js, ¬ (x ∉ processed ∧
            acceptsCandidate base (ms.getD x default) thr) := by
          intro x hx
          rcases List.mem_cons.mp hx with rfl | hx
          · exact fun hc => not_accepts_of_startsAfter hb hc.2
          · intro hc
            have hle := hhead x hx
            exact not_accepts_of_startsAfter (lt_of_lt_of_le hb hle) hc.2
        symm
        rw [List.filter_eq_nil_iff]
        intro a ha
        simpa using hall a ha
      · rw [if_neg hb]
        by_cases ha : acceptsCandidate base (ms.getD j default) thr
        · rw [if_pos ha, List.filter_cons, if_pos (decide_eq_true ⟨hp, ha⟩)]
          rw [ih htail]
        · rw [if_neg ha, List.filter_cons,
            if_neg (fun hc => ha (of_decide_eq_true hc).2)]
          exact ih htail

/-- Indices already processed never appear in any later emitted group. -/
theorem sweepFrom_avoids_processed (ms : List DNAMatch) (s : TriangulationSettings) :
    ∀ (is processed : List ℕ) (x : ℕ), x ∈ processed →
      ∀ pr ∈ sweepFrom ms s is processed, x ∉ pr.2 := by
  intro is
  induction is with
  | nil => intro processed x _ pr hpr; simp [sweepFrom] at hpr
  | cons i is ih =>
    intro processed x hx pr hpr
    rw [sweepFrom] at hpr
    by_cases hp : i ∈ processed
    · rw [if_pos hp] at hpr; exact ih processed x hx pr hpr
    · rw [if_neg hp] at hpr
      set accepted := i :: scanCandidates ms (ms.getD i default) s.overlapThreshold processed is with hacc
      by_cases hmin : s.minimumMatches ≤ (accepted.map (fun j => ms.getD j default)).length
      · rw [if_pos hmin] at hpr
        by_cases hspan : maxStartOf (accepted.map (fun j => ms.getD j default)) <
            minEndOf (accepted.map (fun j => ms.getD j default))
        · rw [if_pos hspan] at hpr
          rcases List.mem_cons.mp hpr with rfl | hpr
          · intro hmem
            rcases List.mem_cons.mp hmem with rfl | hmem
            · exact hp hx
            · exact (scanCandidates_mem hmem).2 hx
          · exact ih _ x (List.mem_append_left _ hx) pr hpr
        · rw [if_neg hspan] at hpr; exact ih processed x hx pr hpr
      · rw [if_neg hmin] at hpr; exact ih processed x hx pr hpr

/-- Sweep structure: along a duplicate-free seed list, every emitted group
carries a duplicate-free index set, its member list is exactly those indices
read from the segment array, and the index sets of distinct groups are
pairwise disjoint. -/
theorem sweepFrom_partition (ms : List DNAMatch) (s : TriangulationSettings) :
    ∀ (is processed : List ℕ), is.Nodup →
      (∀ pr ∈ sweepFrom ms s is processed,
        pr.2.Nodup ∧ pr.1.«matches» = pr.2.map (fun j => ms.getD j default)) ∧
      (sweepFrom ms s is processed).Pairwise (fun a b => ∀ x ∈ a.2, x ∉ b.2) := by
  intro is
  induction is with
  | nil =>
    intro processed _
    refine ⟨fun pr hpr => ?_, ?_⟩
    · simp [sweepFrom] at hpr
    · simp [sweepFrom]
  | cons i is ih =>
    intro processed hnd
    have hndt : is.Nodup := hnd.sublist (List.sublist_cons_self i is)
    have hni : i ∉ is := (List.nodup_cons.mp hnd).1
    rw [sweepFrom]
    by_cases hp : i ∈ processed
    · rw [if_pos hp]; exact ih processed hndt
    · rw [if_neg hp]
      set accepted := i :: scanCandidates ms (ms.getD i default) s.overlapThreshold processed is with hacc
      by_cases hmin : s.minimumMatches ≤ (accepted.map (fun j => ms.getD j default)).length
      · rw [if_pos hmin]
        by_cases hspan : maxStartOf (accepted.map (fun j => ms.getD j default)) <
            minEndOf (accepted.map (fun j => ms.getD j default))
        · rw [if_pos hspan]
          have haccnd : accepted.Nodup := by
            rw [hacc, List.nodup_cons]
            refine ⟨fun hmem => hni (scanCandidates_mem hmem).1, ?_⟩
            exact ((scanCandidates_sublist ms _ _ processed is).nodup hndt)
          have hrest := ih (processed ++ accepted) hndt
          constructor
          · intro pr hpr
            rcases List.mem_cons.mp hpr with rfl | hpr
            · exact ⟨haccnd, rfl⟩
            · exact hrest.1 pr hpr
          · rw [List.pairwise_cons]
            refine ⟨?_, hrest.2⟩
            intro pr hpr x hx
            exact sweepFrom_avoids_processed ms s is (processed ++ accepted) x
              (List.mem_append_right _ hx) pr hpr
        · rw [if_neg hspan]; exact ih processed hndt
      · rw [if_neg hmin]; exact ih processed hndt

/-! ### Canonicalization: character-class facts -/

/-- Packing a small valid scalar value round-trips through `Char.ofNat`. -/
theorem char_toNat_ofNat {m : ℕ} (h : m < 55296) : (Char.ofNat m).toNat = m := by
  have hv : m.isValidChar := Or.inl h
  unfold Char.ofNat
  rw [dif_pos hv]
  unfold Char.ofNatAux Char.toNat
  simp [UInt32.toNat]

/-- `Char.toLower` is idempotent. -/
theorem toLower_idem (c : Char) : Char.toLower (Char.toLower c) = Char.toLower c := by
  unfold Char.toLower
  by_cases h : c.toNat ≥ 65 ∧ c.toNat ≤ 90
  · rw [if_pos h]
    have hval : (Char.ofNat (c.toNat + 32)).toNat = c.toNat + 32 :=
      char_toNat_ofNat (by omega)
    rw [if_neg (by omega)]
  · rw [if_neg h, if_neg h]

/-- Lowercasing preserves being a comma. -/
theorem toLower_eq_comma (c : Char) : (Char.toLower c = ',') ↔ c = ',' := by
  unfold Char.toLower
  by_cases h : c.toNat ≥ 65 ∧ c.toNat ≤ 90
  · rw [if_pos h]
    constructor
    · intro hc
      have h1 : (Char.ofNat (c.toNat + 32)).toNat = c.toNat + 32 :=
        char_toNat_ofNat (by omega)
      have h2 := congrArg Char.toNat hc
      rw [h1] at h2
      have : (',').toNat = 44 := by decide
      omega
    · intro hc
      subst hc
      simp at h
  · rw [if_neg h]

/-- JS whitespace is never a word character. -/
theorem ws_not_word {c : Char} (h : isWs c = true) : isWordChar c = false := by
  rw [isWs] at h
  simp only [Bool.or_eq_true, decide_eq_true_eq] at h
  rcases h with ((((rfl | rfl) | rfl) | rfl) | rfl) | rfl <;> decide

/-- A word character is never JS whitespace. -/
theorem word_not_ws {c : Char} (h : isWordChar c = true) : isWs c = false := by
  by_cases hw : isWs c = true
  · rw [ws_not_word hw] at h
    exact absurd h (by simp)
  · simpa using hw

/-- A comma is neither whitespace nor a word character nor a dot. -/
theorem comma_class : isWs ',' = false ∧ isWordChar ',' = false ∧ (',' : Char) ≠ '.' := by
  refine ⟨by decide, by decide, by decide⟩

/-! ### Canonicalization: character membership of each stage -/

/-- Characters of the collapse output come from the input or are `' '`. -/
theorem mem_collapseWsAux {c : Char} :
    ∀ (b : Bool) (l : List Char), c ∈ collapseWsAux b l → c ∈ l ∨ c = ' ' := by
  intro b l
  induction l generalizing b with
  | nil => intro h; simp [collapseWsAux] at h
  | cons x xs ih =>
    intro h
    rw [collapseWsAux] at h
    by_cases hx : isWs x
    · rw [if_pos hx] at h
      by_cases hb : b
      · subst hb
        rw [if_pos rfl] at h
        rcases ih true h with h | h
        · exact Or.inl (List.mem_cons_of_mem _ h)
        · exact Or.inr h
      · rw [if_neg (by simpa using hb)] at h
        rcases List.mem_cons.mp h with rfl | h
        · exact Or.inr rfl
        · rcases ih true h with h | h
          · exact Or.inl (List.mem_cons_of_mem _ h)
          · exact Or.inr h
    · rw [if_neg hx] at h
      rcases List.mem_cons.mp h with rfl | h
      · exact Or.inl (List.mem_cons_self _ _)
      · rcases ih false h with h | h
        · exact Or.inl (List.mem_cons_of_mem _ h)
        · exact Or.inr h

/-- `trimRight` keeps a prefix of its input. -/
theorem trimRight_prefixOf (l : List Char) : (trimRight l).IsPrefix l := by
  induction l with
  | nil => exact List.prefix_refl _
  | cons c cs ih =>
    rw [trimRight]
    cases htr : trimRight cs with
    | nil =>
      by_cases hc : isWs c
      · rw [if_pos hc]; exact List.nil_prefix
      · rw [if_neg hc]; exact ⟨cs, rfl⟩
    | cons d ds =>
      rw [htr] at ih
      exact List.prefix_cons_inj c |>.mpr ih

/-- Characters of `trimWs` output come from the input. -/
theorem mem_trimWs {c : Char} {l : List Char} (h : c ∈ trimWs l) : c ∈ l := by
  rw [trimWs] at h
  exact List.dropWhile_subset _ ((trimRight_prefixOf _).subset h)

/-- Characters of the comma-split parts come from the input. -/
theorem mem_splitOnComma {c : Char} :
    ∀ (l : List Char) (p : List Char), p ∈ splitOnComma l → c ∈ p → c ∈ l := by
  intro l
  induction l with
  | nil =>
    intro p hp hc
    rw [splitOnComma] at hp
    rcases List.mem_singleton.mp hp with rfl
    simp at hc
  | cons x xs ih =>
    intro p hp hc
    rw [splitOnComma] at hp
    by_cases hx : x = ','
    · rw [if_pos hx] at hp
      rcases List.mem_cons.mp hp with rfl | hp
      · simp at hc
      · exact List.mem_cons_of_mem _ (ih p hp hc)
    · rw [if_neg hx] at hp
      cases hs : splitOnComma xs with
      | nil =>
        rw [hs] at hp
        rcases List.mem_singleton.mp hp with rfl
        rcases List.mem_singleton.mp hc with rfl
        exact List.mem_cons_self _ _
      | cons q qs =>
        rw [hs] at hp
        rcases List.mem_cons.mp hp with rfl | hp
        · rcases List.mem_cons.mp hc with rfl | hc
          · exact List.mem_cons_self _ _
          · exact List.mem_cons_of_mem _ (ih q (hs ▸ List.mem_cons_self _ _) hc)
        · exact List.mem_cons_of_mem _ (ih p (hs ▸ List.mem_cons_of_mem _ hp) hc)

/-- Characters of the comma rewrite come from the input or are `' '`. -/
theorem mem_commaRewrite {c : Char} {l : List Char} (h : c ∈ commaRewrite l) :
    c ∈ l ∨ c = ' ' := by
  rw [commaRewrite] at h
  by_cases h1 : l.contains ','
  · rw [if_pos h1] at h
    by_cases h2 : ((splitOnComma l).map trimWs).length = 2
    · rw [if_pos h2] at h
      have h3 := mem_trimWs h
      have hget : ∀ i : ℕ, c ∈ ((splitOnComma l).map trimWs).getD i [] → c ∈ l := by
        intro i hci
        rw [List.getD] at hci
        cases hgi : ((splitOnComma l).map trimWs).get? i with
        | none => rw [hgi] at hci; simp at hci
        | some p =>
          rw [hgi] at hci
          simp only [Option.getD_some] at hci
          have hp : p ∈ (splitOnComma l).map trimWs := List.get?_mem hgi
          obtain ⟨q, hq, rfl⟩ := List.mem_map.mp hp
          exact mem_splitOnComma l q hq (mem_trimWs hci)
      rcases List.mem_append.mp h3 with h4 | h4
      · exact Or.inl (hget 1 h4)
      · rcases List.mem_cons.mp h4 with rfl | h4
        · exact Or.inr rfl
        · exact Or.inl (hget 0 h4)
    · rw [if_neg h2] at h; exact Or.inl h
  · rw [if_neg h1] at h; exact Or.inl h

/-- Characters of a token-removal pass come from its input. -/
theorem mem_removeTokensRun {c : Char} (toks : List (List Char)) :
    ∀ l : List Char, c ∈ removeTokensRun toks l → c ∈ l := by
  intro l
  induction l using removeTokensRun.induct toks with
  | case1 => intro h; simp [removeTokensRun] at h
  | case2 x cs hx run tail hrun ih =>
    intro h
    rw [removeTokensRun, if_pos hx, if_pos hrun] at h
    have h2 := ih h
    have h3 : c ∈ cs.dropWhile isWordChar := by
      split at h2
      · exact (List.tail_sublist _).subset h2
      · exact h2
    exact List.mem_cons_of_mem _ (List.dropWhile_subset _ h3)
  | case3 x cs hx run tail hrun ih =>
    intro h
    rw [removeTokensRun, if_pos hx, if_neg hrun] at h
    rcases List.mem_append.mp h with h2 | h2
    · rcases List.mem_cons.mp h2 with rfl | h2
      · exact List.mem_cons_self _ _
      · exact List.mem_cons_of_mem _ (List.takeWhile_subset _ h2)
    · exact List.mem_cons_of_mem _ (List.dropWhile_subset _ (ih h2))
  | case4 x cs hx ih =>
    intro h
    rw [removeTokensRun, if_neg hx] at h
    rcases List.mem_cons.mp h with rfl | h2
    · exact List.mem_cons_self _ _
    · exact List.mem_cons_of_mem _ (ih h2)

/-- The lowercasing stage produces only `Char.toLower` fixed points. -/
theorem lowFix_jsToLower (l : List Char) : lowFix (jsToLower l) := by
  intro c hc
  obtain ⟨d, _, rfl⟩ := List.mem_map.mp hc
  exact toLower_idem d

/-- `lowFix` survives the whole canonicalization pipeline after lowering. -/
theorem lowFix_canonicalize (l : List Char) : lowFix (canonicalizeChars l) := by
  have h1 : lowFix (jsToLower l) := lowFix_jsToLower l
  have hsp : Char.toLower ' ' = ' ' := by decide
  have h2 : lowFix (trimWs (jsToLower l)) := fun c hc => h1 c (mem_trimWs hc)
  have h3 : lowFix (collapseWs (trimWs (jsToLower l))) := by
    intro c hc
    rcases mem_collapseWsAux false _ hc with h | rfl
    · exact h2 c h
    · exact hsp
  have h4 : lowFix (commaRewrite (collapseWs (trimWs (jsToLower l)))) := by
    intro c hc
    rcases mem_commaRewrite hc with h | rfl
    · exact h3 c h
    · exact hsp
  have h5 : lowFix (removeTokensRun suffixTokens
      (commaRewrite (collapseWs (trimWs (jsToLower l))))) :=
    fun c hc => h4 c (mem_removeTokensRun _ _ hc)
  have h6 : lowFix (removeTokensRun titleTokens (removeTokensRun suffixTokens
      (commaRewrite (collapseWs (trimWs (jsToLower l)))))) :=
    fun c hc => h5 c (mem_removeTokensRun _ _ hc)
  intro c hc
  rw [canonicalizeChars] at hc
  have hc2 := mem_trimWs hc
  rcases mem_collapseWsAux false _ hc2 with h | rfl
  · exact h6 c h
  · exact hsp

/-- On a `lowFix` list, lowering is the identity. -/
theorem jsToLower_eq_self {l : List Char} (h : lowFix l) : jsToLower l = l :=
  List.map_congr_left h |>.trans (List.map_id l)

/-! ### Canonicalization: whitespace normal form -/

/-- `wsTame` is closed under `tail`. -/
theorem wsTame_tail {c : Char} {cs : List Char} (h : wsTame (c :: cs) = true) :
    wsTame cs = true := by
  rw [wsTame, Bool.and_eq_true] at h
  exact h.2

/-- The collapse pass outputs whitespace normal form; in skipping mode the
output starts with a non-whitespace character. -/
theorem collapseWsAux_tame (l : List Char) :
    wsTame (collapseWsAux false l) = true ∧
    wsTame (collapseWsAux true l) = true ∧
    (collapseWsAux true l).head?.all (fun d => !isWs d) = true := by
  induction l with
  | nil => exact ⟨rfl, rfl, rfl⟩
  | cons c cs ih =>
    obtain ⟨ihf, iht, ihh⟩ := ih
    by_cases hc : isWs c = true
    · rw [collapseWsAux, if_pos hc, collapseWsAux, if_pos hc, if_pos rfl,
        if_neg (by simp)]
      refine ⟨?_, iht, ihh⟩
      rw [wsTame]
      simp [iht, ihh]
    · rw [collapseWsAux, if_neg hc, collapseWsAux, if_neg hc]
      have htame : wsTame (c :: collapseWsAux false cs) = true := by
        rw [wsTame]
        simp only [Bool.and_eq_true]
        exact ⟨by rw [if_neg hc], ihf⟩
      refine ⟨htame, htame, ?_⟩
      simp [hc]

/-- Collapse is the identity on whitespace normal form (in skipping mode,
when the head is not whitespace). -/
theorem collapseWsAux_eq_self (l : List Char) (h : wsTame l = true) :
    collapseWsAux false l = l ∧
    (l.head?.all (fun d => !isWs d) = true → collapseWsAux true l = l) := by
  induction l with
  | nil => exact ⟨rfl, fun _ => rfl⟩
  | cons c cs ih =>
    rw [wsTame, Bool.and_eq_true] at h
    obtain ⟨hc1, hc2⟩ := h
    obtain ⟨ihf, iht⟩ := ih hc2
    by_cases hc : isWs c = true
    · rw [if_pos hc] at hc1
      simp only [Bool.and_eq_true, decide_eq_true_eq] at hc1
      obtain ⟨rfl, hnext⟩ := hc1
      constructor
      · rw [collapseWsAux, if_pos hc, if_neg (by simp)]
        rw [iht hnext]
      · intro hh
        simp [hc] at hh
    · constructor
      · rw [collapseWsAux, if_neg hc, ihf]
      · intro _
        rw [collapseWsAux, if_neg hc, ihf]

/-- A list whose `trimRight` is empty is all whitespace. -/
theorem trimRight_eq_nil {l : List Char} (h : trimRight l = []) :
    ∀ c ∈ l, isWs c = true := by
  induction l with
  | nil => intro c hc; simp at hc
  | cons x xs ih =>
    rw [trimRight] at h
    intro c hc
    cases htr : trimRight xs with
    | nil =>
      rw [htr] at h
      by_cases hx : isWs x = true
      · rcases List.mem_cons.mp hc with rfl | hc
        · exact hx
        · exact ih htr c hc
      · rw [if_neg hx] at h
        simp at h
    | cons d ds => rw [htr] at h; simp at h

/-- `trimRight` keeps the head of a list when its result is nonempty. -/
theorem trimRight_head? {l : List Char} (h : trimRight l ≠ []) :
    (trimRight l).head? = l.head? := by
  cases l with
  | nil => rfl
  | cons c cs =>
    cases htr : trimRight cs with
    | nil =>
      by_cases hc : isWs c = true
      · exact absurd (by simp [trimRight, htr, hc]) h
      · simp [trimRight, htr, hc]
    | cons d ds => simp [trimRight, htr]

/-- `trimRight` is idempotent. -/
theorem trimRight_idem (l : List Char) : trimRight (trimRight l) = trimRight l := by
  induction l with
  | nil => rfl
  | cons c cs ih =>
    rw [trimRight]
    cases htr : trimRight cs with
    | nil =>
      by_cases hc : isWs c
      · rw [if_pos hc]; rfl
      · rw [if_neg hc, trimRight, trimRight, if_neg hc]
    | cons d ds =>
      rw [htr] at ih
      rw [trimRight, ih]

/-- `wsTame` is closed under `dropWhile`. -/
theorem wsTame_dropWhile (p : Char → Bool) {l : List Char} (h : wsTame l = true) :
    wsTame (l.dropWhile p) = true := by
  induction l with
  | nil => exact h
  | cons c cs ih =>
    rw [List.dropWhile_cons]
    by_cases hp : p c = true
    · rw [if_pos hp]; exact ih (wsTame_tail h)
    · rw [if_neg hp]; exact h

/-- `wsTame` is closed under `trimRight`. -/
theorem wsTame_trimRight {l : List Char} (h : wsTame l = true) :
    wsTame (trimRight l) = true := by
  induction l with
  | nil => exact h
  | cons c cs ih =>
    rw [trimRight]
    cases htr : trimRight cs with
    | nil =>
      by_cases hc : isWs c
      · rw [if_pos hc]; rfl
      · rw [if_neg hc, wsTame]
        simp [hc, wsTame]
    | cons d ds =>
      rw [wsTame, Bool.and_eq_true] at h
      have ih2 := ih h.2
      rw [htr] at ih2
      rw [wsTame, Bool.and_eq_true]
      refine ⟨?_, ih2⟩
      by_cases hc : isWs c = true
      · rw [if_pos hc] at h ⊢
        simp only [Bool.and_eq_true, decide_eq_true_eq] at h ⊢
        refine ⟨h.1.1, ?_⟩
        have hh : (d :: ds).head? = cs.head? := htr ▸ trimRight_head? (htr ▸ (by simp))
        rw [hh]
        exact h.1.2
      · rw [if_neg hc]

/-- `dropWhile` is the identity when the head does not satisfy the predicate. -/
theorem dropWhile_eq_self_of_head {l : List Char}
    (h : l.head?.all (fun d => !isWs d) = true) : l.dropWhile isWs = l := by
  cases l with
  | nil => rfl
  | cons c cs =>
    simp only [List.head?_cons, Option.all_some, Bool.not_eq_true'] at h
    rw [List.dropWhile_cons, if_neg (by simp [h])]

/-- The head of a trimmed list is not whitespace. -/
theorem trimWs_head (l : List Char) :
    (trimWs l).head?.all (fun d => !isWs d) = true := by
  rw [trimWs]
  by_cases he : trimRight (l.dropWhile isWs) = []
  · rw [he]; rfl
  · rw [trimRight_head? he]
    cases hdw : l.dropWhile isWs with
    | nil => rfl
    | cons c cs =>
      have := List.head?_dropWhile_not isWs l
      rw [hdw] at this
      simp only [List.head?_cons] at this ⊢
      simpa using this

/-- `trimWs` is idempotent. -/
theorem trimWs_idem (l : List Char) : trimWs (trimWs l) = trimWs l := by
  have h1 : (trimWs l).dropWhile isWs = trimWs l :=
    dropWhile_eq_self_of_head (trimWs_head l)
  rw [trimWs, h1]
  rw [trimWs, trimRight_idem]

/-- `wsTame` is closed under `trimWs`. -/
theorem wsTame_trimWs {l : List Char} (h : wsTame l = true) :
    wsTame (trimWs l) = true :=
  wsTame_trimRight (wsTame_dropWhile isWs h)

/-! ### Canonicalization: comma bookkeeping -/

/-- Collapsing whitespace preserves the number of commas. -/
theorem count_comma_collapseWsAux (l : List Char) :
    ∀ b : Bool, (collapseWsAux b l).count ',' = l.count ',' := by
  induction l with
  | nil => intro b; rfl
  | cons c cs ih =>
    intro b
    rw [collapseWsAux]
    by_cases hc : isWs c = true
    · have hne : (c == ',') = false := by
        have h1 : isWs ',' = false := by decide
        by_cases h : c = ','
        · subst h; rw [h1] at hc; exact absurd hc (by simp)
        · simp [h]
      by_cases hb : b
      · subst hb
        rw [if_pos hc, if_pos rfl, ih, List.count_cons, hne]
        simp
      · rw [if_pos hc, if_neg hb, List.count_cons, List.count_cons, ih, hne]
        simp
    · rw [if_neg hc, List.count_cons, List.count_cons, ih]

/-- Dropping leading whitespace preserves the number of commas. -/
theorem count_comma_dropWhileWs (l : List Char) :
    (l.dropWhile isWs).count ',' = l.count ',' := by
  induction l with
  | nil => rfl
  | cons c cs ih =>
    rw [List.dropWhile_cons]
    by_cases hc : isWs c = true
    · have hne : (c == ',') = false := by
        have h1 : isWs ',' = false := by decide
        by_cases h : c = ','
        · subst h; rw [h1] at hc; exact absurd hc (by simp)
        · simp [h]
      rw [if_pos hc, ih, List.count_cons, hne]
      simp
    · rw [if_neg hc]

/-- Trimming trailing whitespace preserves the number of commas. -/
theorem count_comma_trimRight (l : List Char) :
    (trimRight l).count ',' = l.count ',' := by
  induction l with
  | nil => rfl
  | cons c cs ih =>
    cases htr : trimRight cs with
    | nil =>
      have hall := trimRight_eq_nil htr
      have hcs : cs.count ',' = 0 := by
        rw [List.count_eq_zero]
        intro hmem
        have := hall ',' hmem
        exact absurd this (by decide)
      by_cases hc : isWs c = true
      · have hne : (c == ',') = false := by
          have h1 : isWs ',' = false := by decide
          by_cases h : c = ','
          · subst h; rw [h1] at hc; exact absurd hc (by simp)
          · simp [h]
        simp [trimRight, htr, hc, List.count_cons, hne, hcs]
      · simp [trimRight, htr, hc, List.count_cons, hcs]
    | cons d ds =>
      rw [htr] at ih
      simp [trimRight, htr, List.count_cons, ih]

/-- `trimWs` preserves the number of commas. -/
theorem count_comma_trimWs (l : List Char) : (trimWs l).count ',' = l.count ',' := by
  rw [trimWs, count_comma_trimRight, count_comma_dropWhileWs]

/-- Lowercasing preserves the number of commas. -/
theorem count_comma_jsToLower (l : List Char) :
    (jsToLower l).count ',' = l.count ',' := by
  induction l with
  | nil => rfl
  | cons c cs ih =>
    rw [jsToLower, List.map_cons, List.count_cons, List.count_cons]
    have : (Char.toLower c == ',') = (c == ',') := by
      by_cases h : c = ','
      · subst h; simp [(toLower_eq_comma ',').mpr rfl]
      · have h2 : Char.toLower c ≠ ',' := fun hc => h ((toLower_eq_comma c).mp hc)
        simp [h, h2]
    rw [this]
    rw [jsToLower] at ih
    rw [ih]

/-- `split(',')` produces one part more than the number of commas. -/
theorem splitOnComma_length (l : List Char) :
    (splitOnComma l).length = l.count ',' + 1 := by
  induction l with
  | nil => rfl
  | cons c cs ih =>
    rw [splitOnComma]
    by_cases hc : c = ','
    · rw [if_pos hc, List.length_cons, ih, List.count_cons]
      simp [hc]
    · rw [if_neg hc]
      cases hs : splitOnComma cs with
      | nil => rw [hs] at ih; simp at ih
      | cons q qs =>
        rw [hs] at ih
        show ((c :: q) :: qs).length = (c :: cs).count ',' + 1
        rw [List.count_cons]
        have hcc : (c == ',') = false := by simp [hc]
        rw [hcc]
        simp only [Bool.false_eq_true, if_false, List.length_cons] at ih ⊢
        omega

/-- The parts of `split(',')` contain no comma. -/
theorem splitOnComma_no_comma :
    ∀ (l : List Char), ∀ p ∈ splitOnComma l, ',' ∉ p := by
  intro l
  induction l with
  | nil =>
    intro p hp
    rcases List.mem_singleton.mp hp with rfl
    simp
  | cons c cs ih =>
    intro p hp
    rw [splitOnComma] at hp
    by_cases hc : c = ','
    · rw [if_pos hc] at hp
      rcases List.mem_cons.mp hp with rfl | hp
      · simp
      · exact ih p hp
    · rw [if_neg hc] at hp
      cases hs : splitOnComma cs with
      | nil =>
        rw [hs] at hp
        rcases List.mem_singleton.mp hp with rfl
        intro hmem
        rcases List.mem_singleton.mp hmem with rfl
        exact hc rfl
      | cons q qs =>
        rw [hs] at hp
        rcases List.mem_cons.mp hp with rfl | hp
        · intro hmem
          rcases List.mem_cons.mp hmem with rfl | hmem
          · exact hc rfl
          · exact ih q (hs ▸ List.mem_cons_self _ _) hmem
        · exact ih p (by rw [hs]; exact List.mem_cons_of_mem _ hp)

/-- A word-character run contains no comma. -/
theorem count_comma_run {w : List Char} (h : ∀ c ∈ w, isWordChar c = true) :
    w.count ',' = 0 := by
  rw [List.count_eq_zero]
  intro hmem
  have := h ',' hmem
  exact absurd this (by decide)

/-- Token removal preserves the number of commas. -/
theorem count_comma_removeTokensRun (toks : List (List Char)) :
    ∀ l : List Char, (removeTokensRun toks l).count ',' = l.count ',' := by
  intro l
  induction l using removeTokensRun.induct toks with
  | case1 => simp [removeTokensRun]
  | case2 x cs hx run tail hrun ih =>
    rw [removeTokensRun, if_pos hx, if_pos hrun]
    have hsplit : x :: cs = (x :: cs.takeWhile isWordChar) ++ cs.dropWhile isWordChar := by
      rw [List.cons_append, List.takeWhile_append_dropWhile]
    have hrunw : ∀ c ∈ x :: cs.takeWhile isWordChar, isWordChar c = true := by
      intro c hc
      rcases List.mem_cons.mp hc with rfl | hc
      · exact hx
      · exact List.mem_takeWhile_imp hc
    have ih' : (removeTokensRun toks (if (cs.dropWhile isWordChar).head? = some '.'
        then (cs.dropWhile isWordChar).tail else cs.dropWhile isWordChar)).count ',' =
        (if (cs.dropWhile isWordChar).head? = some '.'
        then (cs.dropWhile isWordChar).tail else cs.dropWhile isWordChar).count ',' := ih
    rw [ih']
    conv_rhs => rw [hsplit]
    rw [List.count_append, count_comma_run hrunw, Nat.zero_add]
    split
    · rename_i hd
      cases hdw : cs.dropWhile isWordChar with
      | nil => rw [hdw] at hd; simp at hd
      | cons d ds =>
        rw [hdw] at hd
        simp only [List.head?_cons, Option.some.injEq] at hd
        subst hd
        simp [List.count_cons]
    · rfl
  | case3 x cs hx run tail hrun ih =>
    rw [removeTokensRun, if_pos hx, if_neg hrun]
    have hsplit : x :: cs = (x :: cs.takeWhile isWordChar) ++ cs.dropWhile isWordChar := by
      rw [List.cons_append, List.takeWhile_append_dropWhile]
    rw [List.count_append, ih]
    conv_rhs => rw [hsplit]
    rw [List.count_append]
  | case4 x cs hx ih =>
    rw [removeTokensRun, if_neg hx, List.count_cons, List.count_cons, ih]

/-- The comma rewrite removes the single comma when there is exactly one and
is the identity otherwise. -/
theorem commaRewrite_count (l : List Char) :
    (l.count ',' = 1 → (commaRewrite l).count ',' = 0) ∧
    (l.count ',' ≠ 1 → commaRewrite l = l) := by
  constructor
  · intro h1
    rw [commaRewrite, if_pos (by
      have : (',' : Char) ∈ l := by
        rw [← List.count_pos_iff]
        omega
      simpa [List.contains] using this)]
    rw [if_pos (by rw [List.length_map, splitOnComma_length, h1])]
    rw [List.count_eq_zero]
    intro hmem
    have h3 := mem_trimWs hmem
    have hget : ∀ i : ℕ, (',' : Char) ∉ ((splitOnComma l).map trimWs).getD i [] := by
      intro i hci
      rw [List.getD] at hci
      cases hgi : ((splitOnComma l).map trimWs).get? i with
      | none => rw [hgi] at hci; simp at hci
      | some p =>
        rw [hgi] at hci
        simp only [Option.getD_some] at hci
        have hp : p ∈ (splitOnComma l).map trimWs := List.get?_mem hgi
        obtain ⟨q, hq, rfl⟩ := List.mem_map.mp hp
        exact splitOnComma_no_comma l q hq (mem_trimWs hci)
    rcases List.mem_append.mp h3 with h4 | h4
    · exact hget 1 h4
    · rcases List.mem_cons.mp h4 with h5 | h4
      · exact absurd h5 (by decide)
      · exact hget 0 h4
  · intro h1
    rw [commaRewrite]
    by_cases hcon : l.contains ','
    · rw [if_pos hcon]
      have hmem : (',' : Char) ∈ l := by simpa [List.contains] using hcon
      have hcnt : 0 < l.count ',' := List.count_pos_iff.mpr hmem
      rw [if_neg (by rw [List.length_map, splitOnComma_length]; omega)]
    · rw [if_neg hcon]

/-! ### Canonicalization: word runs -/

/-- A leading non-word character does not affect the word runs. -/
theorem wordRuns_cons_not_word {c : Char} {l : List Char} (h : ¬ isWordChar c = true) :
    wordRuns (c :: l) = wordRuns l := by
  rw [wordRuns, if_neg h]

/-- `takeWhile`/`dropWhile` on a word run followed by a non-word boundary. -/
theorem takeWhile_word_append {w t : List Char} (hw : ∀ c ∈ w, isWordChar c = true)
    (ht : t.head?.all (fun d => !isWordChar d) = true) :
    (w ++ t).takeWhile isWordChar = w ∧ (w ++ t).dropWhile isWordChar = t := by
  induction w with
  | nil =>
    simp only [List.nil_append]
    cases t with
    | nil => exact ⟨rfl, rfl⟩
    | cons d ds =>
      simp only [List.head?_cons, Option.all_some, Bool.not_eq_true'] at ht
      rw [List.takeWhile_cons, List.dropWhile_cons]
      rw [if_neg (by simp [ht]), if_neg (by simp [ht])]
      exact ⟨rfl, rfl⟩
  | cons a w' ih =>
    have ha := hw a (List.mem_cons_self _ _)
    have ih2 := ih (fun c hc => hw c (List.mem_cons_of_mem _ hc))
    rw [List.cons_append, List.takeWhile_cons, List.dropWhile_cons,
      if_pos ha, if_pos ha, ih2.1, ih2.2]
    exact ⟨rfl, rfl⟩

/-- The word runs of a word run followed by a boundary. -/
theorem wordRuns_append_run {w t : List Char} (hw : ∀ c ∈ w, isWordChar c = true)
    (hne : w ≠ []) (ht : t.head?.all (fun d => !isWordChar d) = true) :
    wordRuns (w ++ t) = w :: wordRuns t := by
  cases w with
  | nil => exact absurd rfl hne
  | cons c w' =>
    have hc := hw c (List.mem_cons_self _ _)
    have htk := takeWhile_word_append (fun x hx => hw x (List.mem_cons_of_mem _ hx)) ht
    rw [List.cons_append, wordRuns, if_pos hc, htk.1, htk.2]

/-- An all-whitespace list has no word runs. -/
theorem wordRuns_all_ws {l : List Char} (h : ∀ c ∈ l, isWs c = true) :
    wordRuns l = [] := by
  induction l with
  | nil => simp [wordRuns]
  | cons c cs ih =>
    rw [wordRuns_cons_not_word (by
      rw [ws_not_word (h c (List.mem_cons_self _ _))]; simp)]
    exact ih (fun x hx => h x (List.mem_cons_of_mem _ hx))

/-- Collapse commutes with a non-whitespace prefix. -/
theorem collapseWsAux_append_nonWs {u : List Char} (z : List Char)
    (hu : ∀ x ∈ u, isWs x = false) :
    collapseWsAux false (u ++ z) = u ++ collapseWsAux false z := by
  induction u with
  | nil => rfl
  | cons a u' ih =>
    have ha := hu a (List.mem_cons_self _ _)
    rw [List.cons_append, collapseWsAux, if_neg (by simp [ha]),
      ih (fun x hx => hu x (List.mem_cons_of_mem _ hx)), List.cons_append]

/-- Collapse keeps a non-word head non-word. -/
theorem collapseWsAux_head_not_word {t : List Char}
    (ht : t.head?.all (fun d => !isWordChar d) = true) :
    (collapseWsAux false t).head?.all (fun d => !isWordChar d) = true := by
  cases t with
  | nil => rfl
  | cons d ds =>
    simp only [List.head?_cons, Option.all_some, Bool.not_eq_true'] at ht
    rw [collapseWsAux]
    by_cases hd : isWs d = true
    · rw [if_pos hd, if_neg (by simp)]
      simp only [List.head?_cons, Option.all_some, Bool.not_eq_true']
      rw [ws_not_word (by decide : isWs ' ' = true)]
    · rw [if_neg hd]
      simp only [List.head?_cons, Option.all_some, Bool.not_eq_true']
      exact ht

/-- Collapsing whitespace preserves the word runs. -/
theorem wordRuns_collapseWsAux :
    ∀ (n : ℕ) (l : List Char), l.length ≤ n → ∀ b : Bool,
      wordRuns (collapseWsAux b l) = wordRuns l := by
  intro n
  induction n with
  | zero =>
    intro l hl b
    have hnil : l = [] := List.length_eq_zero.mp (Nat.le_zero.mp hl)
    subst hnil
    rfl
  | succ n ih =>
    intro l hl b
    cases l with
    | nil => rfl
    | cons c cs =>
      simp only [List.length_cons] at hl
      by_cases hc : isWs c = true
      · have hcw : ¬ isWordChar c = true := by rw [ws_not_word hc]; simp
        rw [wordRuns_cons_not_word hcw, collapseWsAux, if_pos hc]
        by_cases hb : b
        · rw [if_pos hb]
          exact ih cs (by omega) true
        · rw [if_neg hb]
          rw [wordRuns_cons_not_word (by decide)]
          exact ih cs (by omega) true
      · by_cases hw : isWordChar c = true
        · have hsplit : cs = cs.takeWhile isWordChar ++ cs.dropWhile isWordChar :=
            (List.takeWhile_append_dropWhile _ _).symm
          have huw : ∀ x ∈ cs.takeWhile isWordChar, isWordChar x = true :=
            fun x hx => List.mem_takeWhile_imp hx
          have hun : ∀ x ∈ cs.takeWhile isWordChar, isWs x = false :=
            fun x hx => word_not_ws (huw x hx)
          have hth : (cs.dropWhile isWordChar).head?.all (fun d => !isWordChar d) = true := by
            cases hdw : cs.dropWhile isWordChar with
            | nil => rfl
            | cons d ds =>
              have := List.head?_dropWhile_not isWordChar cs
              rw [hdw] at this
              simp only [List.head?_cons] at this ⊢
              simpa using this
          have hcol : collapseWsAux b (c :: cs) =
              (c :: cs.takeWhile isWordChar) ++
                collapseWsAux false (cs.dropWhile isWordChar) := by
            rw [collapseWsAux, if_neg hc]
            conv_lhs => rw [hsplit]
            rw [collapseWsAux_append_nonWs _ hun, List.cons_append]
          rw [hcol]
          rw [wordRuns_append_run
            (by
              intro x hx
              rcases List.mem_cons.mp hx with rfl | hx
              · exact hw
              · exact huw x hx)
            (by simp)
            (collapseWsAux_head_not_word hth)]
          have hlen : (cs.dropWhile isWordChar).length ≤ n := by
            have := (List.dropWhile_sublist (l := cs) isWordChar).length_le
            omega
          rw [ih _ hlen false]
          conv_rhs => rw [show (c :: cs) = (c :: cs.takeWhile isWordChar) ++
            cs.dropWhile isWordChar by rw [List.cons_append, List.takeWhile_append_dropWhile]]
          rw [wordRuns_append_run
            (by
              intro x hx
              rcases List.mem_cons.mp hx with rfl | hx
              · exact hw
              · exact huw x hx)
            (by simp) hth]
        · rw [collapseWsAux, if_neg hc, wordRuns_cons_not_word hw,
            wordRuns_cons_not_word hw]
          exact ih cs (by omega) false

/-- Dropping leading whitespace preserves the word runs. -/
theorem wordRuns_dropWhileWs (l : List Char) :
    wordRuns (l.dropWhile isWs) = wordRuns l := by
  induction l with
  | nil => rfl
  | cons c cs ih =>
    rw [List.dropWhile_cons]
    by_cases hc : isWs c = true
    · rw [if_pos hc, ih, wordRuns_cons_not_word (by rw [ws_not_word hc]; simp)]
    · rw [if_neg hc]

/-- `trimRight` on a non-whitespace prefix followed by a tail. -/
theorem trimRight_append_nonWs {u : List Char} (z : List Char)
    (hu : ∀ x ∈ u, isWs x = false) :
    trimRight (u ++ z) = if trimRight z = [] then u else u ++ trimRight z := by
  induction u with
  | nil =>
    simp only [List.nil_append]
    by_cases hz : trimRight z = []
    · rw [if_pos hz, hz]
    · rw [if_neg hz]
  | cons a u' ih =>
    have ha := hu a (List.mem_cons_self _ _)
    have ih2 := ih (fun x hx => hu x (List.mem_cons_of_mem _ hx))
    rw [List.cons_append, trimRight, ih2]
    by_cases hz : trimRight z = []
    · rw [if_pos hz, if_pos hz]
      cases u' with
      | nil => simp [ha]
      | cons e es => rfl
    · rw [if_neg hz, if_neg hz]
      cases hap : u' ++ trimRight z with
      | nil =>
        exact absurd (List.append_eq_nil.mp hap).2 hz
      | cons e es =>
        rw [List.cons_append, hap]

/-- Trimming trailing whitespace preserves the word runs. -/
theorem wordRuns_trimRight :
    ∀ (n : ℕ) (l : List Char), l.length ≤ n → wordRuns (trimRight l) = wordRuns l := by
  intro n
  induction n with
  | zero =>
    intro l hl
    have hnil : l = [] := List.length_eq_zero.mp (Nat.le_zero.mp hl)
    subst hnil
    rfl
  | succ n ih =>
    intro l hl
    cases l with
    | nil => rfl
    | cons c cs =>
      simp only [List.length_cons] at hl
      by_cases hw : isWordChar c = true
      · have huw : ∀ x ∈ cs.takeWhile isWordChar, isWordChar x = true :=
          fun x hx => List.mem_takeWhile_imp hx
        have hun : ∀ x ∈ c :: cs.takeWhile isWordChar, isWs x = false := by
          intro x hx
          rcases List.mem_cons.mp hx with rfl | hx
          · exact word_not_ws hw
          · exact word_not_ws (huw x hx)
        have hth : (cs.dropWhile isWordChar).head?.all (fun d => !isWordChar d) = true := by
          cases hdw : cs.dropWhile isWordChar with
          | nil => rfl
          | cons d ds =>
            have := List.head?_dropWhile_not isWordChar cs
            rw [hdw] at this
            simp only [List.head?_cons] at this ⊢
            simpa using this
        have hall : ∀ x ∈ c :: cs.takeWhile isWordChar, isWordChar x = true := by
          intro x hx
          rcases List.mem_cons.mp hx with rfl | hx
          · exact hw
          · exact huw x hx
        have hsplit : c :: cs = (c :: cs.takeWhile isWordChar) ++ cs.dropWhile isWordChar := by
          rw [List.cons_append, List.takeWhile_append_dropWhile]
        have htr : trimRight (c :: cs) =
            if trimRight (cs.dropWhile isWordChar) = [] then c :: cs.takeWhile isWordChar
            else (c :: cs.takeWhile isWordChar) ++ trimRight (cs.dropWhile isWordChar) := by
          conv_lhs => rw [hsplit]
          exact trimRight_append_nonWs _ hun
        have hlen : (cs.dropWhile isWordChar).length ≤ n := by
          have := (List.dropWhile_sublist (l := cs) isWordChar).length_le
          omega
        by_cases hz : trimRight (cs.dropWhile isWordChar) = []
        · rw [htr, if_pos hz]
          have h1 : wordRuns (c :: cs.takeWhile isWordChar) =
              (c :: cs.takeWhile isWordChar) :: wordRuns ([] : List Char) := by
            conv_lhs => rw [show c :: cs.takeWhile isWordChar =
              (c :: cs.takeWhile isWordChar) ++ ([] : List Char) from (List.append_nil _).symm]
            exact wordRuns_append_run hall (by simp) rfl
          have h2 : wordRuns (cs.dropWhile isWordChar) = [] :=
            wordRuns_all_ws (trimRight_eq_nil hz)
          conv_rhs => rw [hsplit]
          rw [wordRuns_append_run hall (by simp) hth, h1, h2]
          simp [wordRuns]
        · rw [htr, if_neg hz]
          have hhead : (trimRight (cs.dropWhile isWordChar)).head?.all
              (fun d => !isWordChar d) = true := by
            rw [trimRight_head? hz]
            exact hth
          rw [wordRuns_append_run hall (by simp) hhead]
          rw [ih _ hlen]
          conv_rhs => rw [hsplit]
          rw [wordRuns_append_run hall (by simp) hth]
      · cases htr : trimRight cs with
        | nil =>
          have hallws := trimRight_eq_nil htr
          have hcs : wordRuns cs = [] := wordRuns_all_ws hallws
          by_cases hc : isWs c = true
          · simp only [trimRight, htr]
            rw [if_pos hc, wordRuns_cons_not_word hw, hcs]
            simp [wordRuns]
          · simp only [trimRight, htr]
            rw [if_neg hc, wordRuns_cons_not_word hw, wordRuns_cons_not_word hw, hcs]
            simp [wordRuns]
        | cons d ds =>
          have h1 : trimRight (c :: cs) = c :: trimRight cs := by
            rw [trimRight, htr]
          rw [h1, wordRuns_cons_not_word hw, wordRuns_cons_not_word hw]
          have := ih cs (by omega)
          rw [htr] at this ⊢
          exact this

/-- `trimWs` preserves the word runs. -/
theorem wordRuns_trimWs (l : List Char) : wordRuns (trimWs l) = wordRuns l := by
  rw [trimWs, wordRuns_trimRight (l.dropWhile isWs).length _ le_rfl, wordRuns_dropWhileWs]

/-- `collapseWs` preserves the word runs. -/
theorem wordRuns_collapseWs (l : List Char) : wordRuns (collapseWs l) = wordRuns l :=
  wordRuns_collapseWsAux l.length l le_rfl false

/-- Filter keeps a head on which the predicate holds. -/
theorem filter_cons_true {α : Type} (p : α → Bool) (a : α) (l : List α) (h : p a = true) :
    (a :: l).filter p = a :: l.filter p := by
  rw [List.filter_cons, if_pos h]

/-- Filter drops a head on which the predicate fails. -/
theorem filter_cons_false {α : Type} (p : α → Bool) (a : α) (l : List α) (h : p a = false) :
    (a :: l).filter p = l.filter p := by
  rw [List.filter_cons]
  simp [h]

/-- Token removal keeps a non-word head non-word. -/
theorem removeTokensRun_head_not_word (toks : List (List Char)) {t : List Char}
    (ht : t.head?.all (fun d => !isWordChar d) = true) :
    (removeTokensRun toks t).head?.all (fun d => !isWordChar d) = true := by
  cases t with
  | nil => simp [removeTokensRun]
  | cons d ds =>
    simp only [List.head?_cons, Option.all_some, Bool.not_eq_true'] at ht
    rw [removeTokensRun, if_neg (by simp [ht])]
    simp [ht]

/-- Unfolding a removal step whose leading run is a token. -/
theorem removeTokensRun_cons_hit (toks : List (List Char)) (x : Char) (cs : List Char)
    (hx : isWordChar x = true)
    (hrun : toks.contains (x :: cs.takeWhile isWordChar) = true) :
    removeTokensRun toks (x :: cs) = removeTokensRun toks
      (if (cs.dropWhile isWordChar).head? = some '.'
       then (cs.dropWhile isWordChar).tail else cs.dropWhile isWordChar) := by
  rw [removeTokensRun, if_pos hx, if_pos hrun]

/-- Unfolding a removal step whose leading run is not a token. -/
theorem removeTokensRun_cons_miss (toks : List (List Char)) (x : Char) (cs : List Char)
    (hx : isWordChar x = true)
    (hrun : ¬ toks.contains (x :: cs.takeWhile isWordChar) = true) :
    removeTokensRun toks (x :: cs) = (x :: cs.takeWhile isWordChar) ++
      removeTokensRun toks (cs.dropWhile isWordChar) := by
  rw [removeTokensRun, if_pos hx, if_neg hrun]

/-- Word runs of one removal pass: exactly the input runs that are not
tokens. -/
theorem wordRuns_removeTokensRun (toks : List (List Char)) :
    ∀ l : List Char, wordRuns (removeTokensRun toks l) =
      (wordRuns l).filter (fun r => !(toks.contains r)) := by
  intro l
  induction l using removeTokensRun.induct toks with
  | case1 => simp [removeTokensRun, wordRuns]
  | case2 x cs hx run tail hrun ih =>
    have hrun' : toks.contains (x :: cs.takeWhile isWordChar) = true := hrun
    have hallw : ∀ c ∈ x :: cs.takeWhile isWordChar, isWordChar c = true := by
      intro c hc
      rcases List.mem_cons.mp hc with rfl | hc
      · exact hx
      · exact List.mem_takeWhile_imp hc
    have hth : (cs.dropWhile isWordChar).head?.all (fun d => !isWordChar d) = true := by
      cases hdw : cs.dropWhile isWordChar with
      | nil => rfl
      | cons d ds =>
        have h2 := List.head?_dropWhile_not isWordChar cs
        rw [hdw] at h2
        simp only [List.head?_cons] at h2 ⊢
        simpa using h2
    have hWR : wordRuns (x :: cs) =
        (x :: cs.takeWhile isWordChar) :: wordRuns (cs.dropWhile isWordChar) := by
      conv_lhs => rw [show x :: cs = (x :: cs.takeWhile isWordChar) ++
        cs.dropWhile isWordChar by rw [List.cons_append, List.takeWhile_append_dropWhile]]
      exact wordRuns_append_run hallw (by simp) hth
    have ih' : wordRuns (removeTokensRun toks (if (cs.dropWhile isWordChar).head? = some '.'
        then (cs.dropWhile isWordChar).tail else cs.dropWhile isWordChar)) =
        (wordRuns (if (cs.dropWhile isWordChar).head? = some '.'
        then (cs.dropWhile isWordChar).tail else cs.dropWhile isWordChar)).filter
          (fun r => !(toks.contains r)) := ih
    have hp : (fun r => !(toks.contains r)) (x :: cs.takeWhile isWordChar) = false := by
      simp only [hrun', Bool.not_true]
    rw [removeTokensRun_cons_hit toks x cs hx hrun', ih', hWR,
      filter_cons_false (fun r => !(toks.contains r)) (x :: cs.takeWhile isWordChar) _ hp]
    congr 1
    cases hdw : cs.dropWhile isWordChar with
    | nil => simp [wordRuns]
    | cons d ds =>
      by_cases hd : d = '.'
      · subst hd
        have hcond : (('.' : Char) :: ds).head? = some '.' := rfl
        rw [if_pos hcond, List.tail_cons,
          wordRuns_cons_not_word (show ¬ isWordChar '.' = true by decide)]
      · have hcond : ¬((d :: ds).head? = some '.') := by simp [hd]
        rw [if_neg hcond]
  | case3 x cs hx run tail hrun ih =>
    have hrun' : ¬ toks.contains (x :: cs.takeWhile isWordChar) = true := hrun
    have hallw : ∀ c ∈ x :: cs.takeWhile isWordChar, isWordChar c = true := by
      intro c hc
      rcases List.mem_cons.mp hc with rfl | hc
      · exact hx
      · exact List.mem_takeWhile_imp hc
    have hth : (cs.dropWhile isWordChar).head?.all (fun d => !isWordChar d) = true := by
      cases hdw : cs.dropWhile isWordChar with
      | nil => rfl
      | cons d ds =>
        have h2 := List.head?_dropWhile_not isWordChar cs
        rw [hdw] at h2
        simp only [List.head?_cons] at h2 ⊢
        simpa using h2
    have hWR : wordRuns (x :: cs) =
        (x :: cs.takeWhile isWordChar) :: wordRuns (cs.dropWhile isWordChar) := by
      conv_lhs => rw [show x :: cs = (x :: cs.takeWhile isWordChar) ++
        cs.dropWhile isWordChar by rw [List.cons_append, List.takeWhile_append_dropWhile]]
      exact wordRuns_append_run hallw (by simp) hth
    have ih' : wordRuns (removeTokensRun toks (cs.dropWhile isWordChar)) =
        (wordRuns (cs.dropWhile isWordChar)).filter (fun r => !(toks.contains r)) := ih
    have hf : toks.contains (x :: cs.takeWhile isWordChar) = false :=
      Bool.eq_false_iff.mpr hrun'
    have hp : (fun r => !(toks.contains r)) (x :: cs.takeWhile isWordChar) = true := by
      simp only [hf, Bool.not_false]
    rw [removeTokensRun_cons_miss toks x cs hx hrun',
      wordRuns_append_run hallw (by simp) (removeTokensRun_head_not_word toks hth),
      ih', hWR, filter_cons_true (fun r => !(toks.contains r)) (x :: cs.takeWhile isWordChar) _ hp]
  | case4 x cs hx ih =>
    rw [removeTokensRun, if_neg hx, wordRuns_cons_not_word hx,
      wordRuns_cons_not_word hx, ih]

/-- A removal pass is the identity when no run is a token. -/
theorem removeTokensRun_eq_self (toks : List (List Char)) :
    ∀ l : List Char, (∀ r ∈ wordRuns l, toks.contains r = false) →
      removeTokensRun toks l = l := by
  intro l
  induction l using removeTokensRun.induct toks with
  | case1 => intro _; simp [removeTokensRun]
  | case2 x cs hx run tail hrun ih =>
    intro h
    have hrun' : toks.contains (x :: cs.takeWhile isWordChar) = true := hrun
    have hallw : ∀ c ∈ x :: cs.takeWhile isWordChar, isWordChar c = true := by
      intro c hc
      rcases List.mem_cons.mp hc with rfl | hc
      · exact hx
      · exact List.mem_takeWhile_imp hc
    have hth : (cs.dropWhile isWordChar).head?.all (fun d => !isWordChar d) = true := by
      cases hdw : cs.dropWhile isWordChar with
      | nil => rfl
      | cons d ds =>
        have h2 := List.head?_dropWhile_not isWordChar cs
        rw [hdw] at h2
        simp only [List.head?_cons] at h2 ⊢
        simpa using h2
    have hWR : wordRuns (x :: cs) =
        (x :: cs.takeWhile isWordChar) :: wordRuns (cs.dropWhile isWordChar) := by
      conv_lhs => rw [show x :: cs = (x :: cs.takeWhile isWordChar) ++
        cs.dropWhile isWordChar by rw [List.cons_append, List.takeWhile_append_dropWhile]]
      exact wordRuns_append_run hallw (by simp) hth
    have hfalse := h (x :: cs.takeWhile isWordChar) (by rw [hWR]; exact List.mem_cons_self _ _)
    rw [hfalse] at hrun'
    simp at hrun'
  | case3 x cs hx run tail hrun ih =>
    intro h
    have hrun' : ¬ toks.contains (x :: cs.takeWhile isWordChar) = true := hrun
    have hallw : ∀ c ∈ x :: cs.takeWhile isWordChar, isWordChar c = true := by
      intro c hc
      rcases List.mem_cons.mp hc with rfl | hc
      · exact hx
      · exact List.mem_takeWhile_imp hc
    have hth : (cs.dropWhile isWordChar).head?.all (fun d => !isWordChar d) = true := by
      cases hdw : cs.dropWhile isWordChar with
      | nil => rfl
      | cons d ds =>
        have h2 := List.head?_dropWhile_not isWordChar cs
        rw [hdw] at h2
        simp only [List.head?_cons] at h2 ⊢
        simpa using h2
    have hWR : wordRuns (x :: cs) =
        (x :: cs.takeWhile isWordChar) :: wordRuns (cs.dropWhile isWordChar) := by
      conv_lhs => rw [show x :: cs = (x :: cs.takeWhile isWordChar) ++
        cs.dropWhile isWordChar by rw [List.cons_append, List.takeWhile_append_dropWhile]]
      exact wordRuns_append_run hallw (by simp) hth
    have ih' : (∀ r ∈ wordRuns (cs.dropWhile isWordChar), toks.contains r = false) →
        removeTokensRun toks (cs.dropWhile isWordChar) = cs.dropWhile isWordChar := ih
    rw [removeTokensRun_cons_miss toks x cs hx hrun',
      ih' (fun r hr => h r (by rw [hWR]; exact List.mem_cons_of_mem _ hr)),
      List.cons_append, List.takeWhile_append_dropWhile]
  | case4 x cs hx ih =>
    intro h
    rw [removeTokensRun, if_neg hx,
      ih (fun r hr => h r (by rw [wordRuns_cons_not_word hx]; exact hr))]

/-- The full canonicalization pipeline is idempotent on character lists. -/
theorem canonicalizeChars_idem (l : List Char) :
    canonicalizeChars (canonicalizeChars l) = canonicalizeChars l := by
  have hlow : jsToLower (canonicalizeChars l) = canonicalizeChars l :=
    jsToLower_eq_self (lowFix_canonicalize l)
  have htame : wsTame (canonicalizeChars l) = true := by
    show wsTame (trimWs (collapseWs (removeTokensRun titleTokens (removeTokensRun suffixTokens
      (commaRewrite (collapseWs (trimWs (jsToLower l)))))))) = true
    exact wsTame_trimWs (collapseWsAux_tame _).1
  have hcol : collapseWs (canonicalizeChars l) = canonicalizeChars l :=
    (collapseWsAux_eq_self _ htame).1
  have htrim : trimWs (canonicalizeChars l) = canonicalizeChars l := by
    show trimWs (trimWs (collapseWs (removeTokensRun titleTokens (removeTokensRun suffixTokens
      (commaRewrite (collapseWs (trimWs (jsToLower l)))))))) = canonicalizeChars l
    exact trimWs_idem _
  have h4 : (canonicalizeChars l).count ',' =
      (commaRewrite (collapseWs (trimWs (jsToLower l)))).count ',' := by
    show (trimWs (collapseWs (removeTokensRun titleTokens (removeTokensRun suffixTokens
      (commaRewrite (collapseWs (trimWs (jsToLower l)))))))).count ',' = _
    rw [count_comma_trimWs, collapseWs, count_comma_collapseWsAux _ false,
      count_comma_removeTokensRun, count_comma_removeTokensRun]
  have hcount : (canonicalizeChars l).count ',' ≠ 1 := by
    rcases eq_or_ne ((collapseWs (trimWs (jsToLower l))).count ',') 1 with h1 | h1
    · rw [h4, (commaRewrite_count _).1 h1]
      omega
    · rw [h4, (commaRewrite_count _).2 h1]
      exact h1
  have hcr : commaRewrite (canonicalizeChars l) = canonicalizeChars l :=
    (commaRewrite_count _).2 hcount
  have hruns : ∀ r ∈ wordRuns (canonicalizeChars l),
      suffixTokens.contains r = false ∧ titleTokens.contains r = false := by
    have hrw : wordRuns (canonicalizeChars l) =
        ((wordRuns (commaRewrite (collapseWs (trimWs (jsToLower l))))).filter
          (fun r => !(suffixTokens.contains r))).filter
          (fun r => !(titleTokens.contains r)) := by
      show wordRuns (trimWs (collapseWs (removeTokensRun titleTokens (removeTokensRun suffixTokens
        (commaRewrite (collapseWs (trimWs (jsToLower l)))))))) = _
      rw [wordRuns_trimWs, wordRuns_collapseWs, wordRuns_removeTokensRun,
        wordRuns_removeTokensRun]
    intro r hr
    rw [hrw, List.mem_filter] at hr
    obtain ⟨hr2, htitle⟩ := hr
    rw [List.mem_filter] at hr2
    obtain ⟨_, hsuf⟩ := hr2
    constructor
    · cases hb : suffixTokens.contains r with
      | false => rfl
      | true => rw [hb] at hsuf; exact absurd hsuf (by decide)
    · cases hb : titleTokens.contains r with
      | false => rfl
      | true => rw [hb] at htitle; exact absurd htitle (by decide)
  have hsufid : removeTokensRun suffixTokens (canonicalizeChars l) = canonicalizeChars l :=
    removeTokensRun_eq_self suffixTokens _ (fun r hr => (hruns r hr).1)
  have htitid : removeTokensRun titleTokens (canonicalizeChars l) = canonicalizeChars l :=
    removeTokensRun_eq_self titleTokens _ (fun r hr => (hruns r hr).2)
  show trimWs (collapseWs (removeTokensRun titleTokens (removeTokensRun suffixTokens
    (commaRewrite (collapseWs (trimWs (jsToLower (canonicalizeChars l)))))))) =
    canonicalizeChars l
  rw [hlow, htrim, hcol, hcr, hsufid, htitid, hcol, htrim]

/-- Left fold of addition equals the initial value plus the list sum. -/
theorem foldl_add_eq_add_sum (l : List ℚ) : ∀ a : ℚ, l.foldl (· + ·) a = a + l.sum := by
  induction l with
  | nil => intro a; simp
  | cons x xs ih => intro a; rw [List.foldl_cons, ih, List.sum_cons]; ring

/-- `totalSizeOf` is the sum of the member sizes. -/
theorem totalSizeOf_eq_sum (ms : List DNAMatch) :
    totalSizeOf ms = (ms.map (·.sizeCM)).sum := by
  rw [totalSizeOf, foldl_add_eq_add_sum, zero_add]

/-- With nonnegative member sizes the total size is nonnegative. -/
theorem totalSizeOf_nonneg {ms : List DNAMatch} (h : ∀ m ∈ ms, 0 ≤ m.sizeCM) :
    0 ≤ totalSizeOf ms := by
  rw [totalSizeOf_eq_sum]
  refine List.sum_nonneg ?_
  intro x hx
  obtain ⟨m, hm, rfl⟩ := List.mem_map.mp hx
  exact h m hm

/-- A left `max` fold dominates its initial value. -/
theorem init_le_foldl_max (l : List ℤ) : ∀ d : ℤ, d ≤ l.foldl max d := by
  induction l with
  | nil => intro d; simp
  | cons z zs ih => intro d; exact le_trans (le_max_left d z) (ih (max d z))

/-- A left `max` fold dominates every list element. -/
theorem mem_le_foldl_max (l : List ℤ) : ∀ (d x : ℤ), x ∈ l → x ≤ l.foldl max d := by
  induction l with
  | nil => intro d x hx; simp at hx
  | cons y ys ih =>
    intro d x hx
    rcases List.mem_cons.mp hx with rfl | hx
    · exact le_trans (le_max_right d x) (init_le_foldl_max ys (max d x))
    · exact ih _ x hx

/-- A left `min` fold is below its initial value. -/
theorem foldl_min_le_init (l : List ℤ) : ∀ d : ℤ, l.foldl min d ≤ d := by
  induction l with
  | nil => intro d; simp
  | cons z zs ih => intro d; exact le_trans (ih (min d z)) (min_le_left d z)

/-- A left `min` fold is below every list element. -/
theorem foldl_min_le_mem (l : List ℤ) : ∀ (d x : ℤ), x ∈ l → l.foldl min d ≤ x := by
  induction l with
  | nil => intro d x hx; simp at hx
  | cons y ys ih =>
    intro d x hx
    rcases List.mem_cons.mp hx with rfl | hx
    · exact le_trans (foldl_min_le_init ys (min d x)) (min_le_right d x)
    · exact ih _ x hx

/-- Every member's start is at most the group's intersection start. -/
theorem start_le_maxStartOf {ms : List DNAMatch} {m : DNAMatch} (hm : m ∈ ms) :
    m.startPosition ≤ maxStartOf ms :=
  mem_le_foldl_max _ _ _ (List.mem_map_of_mem (·.startPosition) hm)

/-- The group's intersection end is at most every member's end. -/
theorem minEndOf_le_end {ms : List DNAMatch} {m : DNAMatch} (hm : m ∈ ms) :
    minEndOf ms ≤ m.endPosition :=
  foldl_min_le_mem _ _ _ (List.mem_map_of_mem (·.endPosition) hm)

/-- Pairs produced by the double loop are pairs of members. -/
theorem allPairs_mem {ms : List DNAMatch} {p : DNAMatch × DNAMatch}
    (hp : p ∈ allPairs ms) : p.1 ∈ ms ∧ p.2 ∈ ms := by
  induction ms with
  | nil => simp [allPairs] at hp
  | cons x xs ih =>
    rw [allPairs] at hp
    rcases List.mem_append.mp hp with hp | hp
    · obtain ⟨y, hy, rfl⟩ := List.mem_map.mp hp
      exact ⟨List.mem_cons_self _ _, List.mem_cons_of_mem _ hy⟩
    · have := ih hp
      exact ⟨List.mem_cons_of_mem _ this.1, List.mem_cons_of_mem _ this.2⟩

/-- With at least two members there is at least one pair. -/
theorem allPairs_length_pos {ms : List DNAMatch} (h : 2 ≤ ms.length) :
    0 < (allPairs ms).length := by
  match ms, h with
  | a :: b :: t, _ =>
    simp [allPairs, List.length_append]

/-- A positively overlapping pair of segments with positive spans has overlap
percentage in (0, 100]. -/
theorem pairOverlapPct_bounds {p : DNAMatch × DNAMatch}
    (hov : pairOverlapPos p)
    (h1 : p.1.startPosition < p.1.endPosition)
    (h2 : p.2.startPosition < p.2.endPosition) :
    0 < pairOverlapPct p ∧ pairOverlapPct p ≤ 100 := by
  rw [pairOverlapPos] at hov
  rw [pairOverlapPct]
  set ov : ℤ := min p.1.endPosition p.2.endPosition -
    max p.1.startPosition p.2.startPosition with hovdef
  set sp : ℤ := min (p.1.endPosition - p.1.startPosition)
    (p.2.endPosition - p.2.startPosition) with hspdef
  have hov0 : 0 < ov := by omega
  have hsp0 : 0 < sp := by
    rw [hspdef]
    omega
  have hle : ov ≤ sp := by
    rw [hovdef, hspdef]
    have := min_le_left p.1.endPosition p.2.endPosition
    have := min_le_right p.1.endPosition p.2.endPosition
    have := le_max_left p.1.startPosition p.2.startPosition
    have := le_max_right p.1.startPosition p.2.startPosition
    omega
  have hov0' : (0 : ℚ) < (ov : ℚ) := by exact_mod_cast hov0
  have hsp0' : (0 : ℚ) < (sp : ℚ) := by exact_mod_cast hsp0
  have hle' : (ov : ℚ) ≤ (sp : ℚ) := by exact_mod_cast hle
  constructor
  · positivity
  · have hratio : (ov : ℚ) / (sp : ℚ) ≤ 1 := (div_le_one hsp0').mpr hle'
    nlinarith

/-- The accumulating double loop of `calculateAverageOverlap` computes the sum
of the overlap percentages of the positively overlapping pairs together with
their count. -/
theorem overlapFold_eq (l : List (DNAMatch × DNAMatch)) :
    ∀ (a : ℚ) (c : ℕ),
      l.foldl (fun (acc : ℚ × ℕ) p =>
        if pairOverlapPos p then (acc.1 + pairOverlapPct p, acc.2 + 1) else acc) (a, c) =
      (a + ((l.filter (fun p => decide (pairOverlapPos p))).map pairOverlapPct).sum,
       c + (l.filter (fun p => decide (pairOverlapPos p))).length) := by
  induction l with
  | nil => intro a c; simp
  | cons x xs ih =>
    intro a c
    rw [List.foldl_cons, List.filter_cons]
    by_cases hx : pairOverlapPos x
    · rw [if_pos hx, if_pos (decide_eq_true hx), ih]
      simp only [List.map_cons, List.sum_cons, List.length_cons, Prod.mk.injEq]
      constructor
      · ring
      · omega
    · rw [if_neg hx, if_neg (fun hc => hx (of_decide_eq_true hc)), ih]

/-- Invariant of the relationship selection loop: either no containing band
beats the incoming best score and the state is unchanged, or the result is the
first containing band attaining the maximal probability (every earlier
containing band is strictly smaller, every later one no larger). -/
theorem predictRelLoop_spec (t : ℚ) (l : List (String × RelBand)) :
    ∀ st : (String × RelBand) × ℚ,
      (predictRelLoop t l st = st ∧
        ∀ e ∈ l.filter (fun e => decide (bandContains t e)), e.2.probability ≤ st.2) ∨
      (∃ pre e post, l.filter (fun e => decide (bandContains t e)) = pre ++ e :: post ∧
        predictRelLoop t l st = (e, e.2.probability) ∧ st.2 < e.2.probability ∧
        (∀ b ∈ pre, b.2.probability < e.2.probability) ∧
        (∀ b ∈ post, b.2.probability ≤ e.2.probability)) := by
  induction l with
  | nil =>
    intro st
    left
    exact ⟨rfl, by simp⟩
  | cons x rest ih =>
    rintro ⟨best, bestScore⟩
    by_cases hc : bandContains t x
    · rw [List.filter_cons, if_pos (decide_eq_true hc)]
      by_cases hs : bestScore < x.2.probability
      · rw [predictRelLoop, if_pos ⟨hc, hs⟩]
        rcases ih (x, x.2.probability) with ⟨heq, hall⟩ | ⟨pre, e, post, hfil, heq, hlt, hpre, hpost⟩
        · right
          exact ⟨[], x, rest.filter (fun e => decide (bandContains t e)), rfl,
            heq, hs, by simp, hall⟩
        · right
          refine ⟨x :: pre, e, post, by rw [hfil, List.cons_append], heq, lt_trans hs hlt, ?_, hpost⟩
          intro b hb
          rcases List.mem_cons.mp hb with rfl | hb
          · exact hlt
          · exact hpre b hb
      · rw [predictRelLoop, if_neg (fun h => hs h.2)]
        rcases ih (best, bestScore) with ⟨heq, hall⟩ | ⟨pre, e, post, hfil, heq, hlt, hpre, hpost⟩
        · left
          refine ⟨heq, ?_⟩
          intro b hb
          rcases List.mem_cons.mp hb with rfl | hb
          · exact le_of_not_lt hs
          · exact hall b hb
        · right
          refine ⟨x :: pre, e, post, by rw [hfil, List.cons_append], heq, hlt, ?_, hpost⟩
          intro b hb
          rcases List.mem_cons.mp hb with rfl | hb
          · exact lt_of_le_of_lt (le_of_not_lt hs) hlt
          · exact hpre b hb
    · rw [List.filter_cons, if_neg (fun h => hc (of_decide_eq_true h)), predictRelLoop,
        if_neg (fun h => hc h.1)]
      exact ih (best, bestScore)

/-- Every entry of the fixed relationship table has positive probability. -/
theorem RELATIONSHIP_DATA_pos : ∀ e ∈ RELATIONSHIP_DATA, 0 < e.2.probability := by
  intro e he
  simp only [RELATIONSHIP_DATA, List.mem_cons, List.not_mem_nil, or_false] at he
  rcases he with rfl | rfl | rfl | rfl | rfl | rfl | rfl | rfl | rfl | rfl | rfl | rfl |
    rfl | rfl | rfl | rfl | rfl | rfl <;> norm_num

/-! ### Ancestor-based splitting -/

/-- Adding a referencing index to the ancestor map preserves soundness. -/
theorem ancSound_add {ms : List DNAMatch} {l : List (String × List ℕ)}
    {a : String} {i : ℕ} (hl : ancSound ms l) (hi : ancRef ms a i) :
    ancSound ms (addAncestorIdx l a i) := by
  intro p hp j hj
  rw [addAncestorIdx] at hp
  split at hp
  · obtain ⟨q, hq, rfl⟩ := List.mem_map.mp hp
    by_cases hqa : q.1 = a
    · rw [if_pos hqa] at hj ⊢
      rcases List.mem_append.mp hj with h | h
      · exact hl q hq j h
      · rcases List.mem_singleton.mp h with rfl
        exact ⟨hi.1, by rw [hqa]; exact hi.2⟩
    · rw [if_neg hqa] at hj ⊢
      exact hl q hq j hj
  · rcases List.mem_append.mp hp with h | h
    · exact hl p h j hj
    · rcases List.mem_singleton.mp h with rfl
      rcases List.mem_singleton.mp hj with rfl
      exact hi

/-- Folding one tree match's suggested ancestors preserves soundness. -/
theorem ancSound_foldl_anc {ms : List DNAMatch} {i : ℕ} (ancs : List String) :
    ∀ acc, ancSound ms acc → (∀ a ∈ ancs, ancRef ms a i) →
    ancSound ms (ancs.foldl (fun acc a => addAncestorIdx acc a i) acc) := by
  induction ancs with
  | nil => intro acc h _; exact h
  | cons a as ih =>
    intro acc h href
    rw [List.foldl_cons]
    exact ih _ (ancSound_add h (href a (List.mem_cons_self _ _)))
      (fun b hb => href b (List.mem_cons_of_mem _ hb))

/-- Folding one member's tree matches preserves soundness. -/
theorem ancSound_foldl_tms {ms : List DNAMatch} {i : ℕ} (tms : List TreeMatchInfo) :
    ∀ acc, ancSound ms acc →
    (∀ tm ∈ tms, ∀ a ∈ tm.suggestedAncestors, ancRef ms a i) →
    ancSound ms (tms.foldl (fun acc tm =>
      tm.suggestedAncestors.foldl (fun acc a => addAncestorIdx acc a i) acc) acc) := by
  induction tms with
  | nil => intro acc h _; exact h
  | cons tm ts ih =>
    intro acc h href
    rw [List.foldl_cons]
    exact ih _ (ancSound_foldl_anc _ _ h (href tm (List.mem_cons_self _ _)))
      (fun t ht a ha => href t (List.mem_cons_of_mem _ ht) a ha)

/-- Folding enumerated members preserves soundness of the ancestor map. -/
theorem ancSound_foldl_enum (ms : List DNAMatch) (l : List (ℕ × DNAMatch)) :
    ∀ acc, ancSound ms acc →
    (∀ q ∈ l, q.1 < ms.length ∧ q.2 = ms.getD q.1 default) →
    ancSound ms (l.foldl (fun acc p =>
      (p.2.treeMatchInfo.getD []).foldl (fun acc tm =>
        tm.suggestedAncestors.foldl (fun acc a => addAncestorIdx acc a p.1) acc) acc) acc) := by
  induction l with
  | nil => intro acc h _; exact h
  | cons q qs ih =>
    intro acc h hq
    rw [List.foldl_cons]
    refine ih _ (ancSound_foldl_tms _ _ h ?_) (fun r hr => hq r (List.mem_cons_of_mem _ hr))
    intro tm htm a ha
    obtain ⟨hlt, heq⟩ := hq q (List.mem_cons_self _ _)
    refine ⟨hlt, tm, ?_, ha⟩
    rw [← heq]
    exact htm

/-- The built ancestor map is sound: every index it records points to a
member referencing that ancestor. -/
theorem collectAncestors_sound (ms : List DNAMatch) :
    ancSound ms (collectAncestors ms) := by
  refine ancSound_foldl_enum ms ms.enum [] (fun p hp => absurd hp (List.not_mem_nil p)) ?_
  intro q hq
  rw [List.mem_enum_iff_getElem?] at hq
  constructor
  · exact (List.getElem?_eq_some.mp hq).1
  · rw [List.getD_eq_getElem?_getD, hq]
    rfl

/-- Every sub-group emitted for one ancestor entry has the recomputed span,
aggregates and single-ancestor label, meets the minimum size, and consists of
the deduplicated members recorded for that ancestor. -/
theorem mem_subGroupFor {g : TriangulationGroup} {s : TriangulationSettings}
    {p : String × List ℕ} {sg : TriangulationGroup} (h : sg ∈ subGroupFor g s p) :
    sg.«matches» = (jsSetDedupNat p.2).map (fun j => g.«matches».getD j default) ∧
    s.minimumMatches ≤ sg.«matches».length ∧
    sg.startPosition = maxStartOf sg.«matches» ∧
    sg.endPosition = minEndOf sg.«matches» ∧
    sg.startPosition < sg.endPosition ∧
    sg.totalSize = totalSizeOf sg.«matches» ∧
    sg.averageSize = totalSizeOf sg.«matches» / (sg.«matches».length : ℚ) ∧
    sg.commonAncestors = some [p.1] ∧
    sg.chromosome = g.chromosome := by
  simp only [subGroupFor] at h
  split at h
  · split at h
    · rename_i hmin hspan
      rcases List.mem_singleton.mp h with rfl
      exact ⟨rfl, hmin, rfl, rfl, hspan, rfl, rfl, rfl, rfl⟩
    · exact absurd h (List.not_mem_nil sg)
  · exact absurd h (List.not_mem_nil sg)

/-- With at least one ancestor collected, splitting a group yields exactly
the qualifying per-ancestor sub-groups. -/
theorem splitOneGroup_eq_join {g : TriangulationGroup} {s : TriangulationSettings}
    (h : collectAncestors g.«matches» ≠ []) :
    splitOneGroup g s = ((collectAncestors g.«matches»).map (subGroupFor g s)).join := by
  have hne : ¬ ((collectAncestors g.«matches»).isEmpty = true) := by
    simpa [List.isEmpty_iff] using h
  simp only [splitOneGroup]
  rw [if_neg hne]

/-- With no ancestor collected, the group passes through unchanged. -/
theorem splitOneGroup_no_ancestors {g : TriangulationGroup} {s : TriangulationSettings}
    (h : collectAncestors g.«matches» = []) :
    splitOneGroup g s = [g] := by
  have he : (collectAncestors g.«matches»).isEmpty = true := by
    simp [List.isEmpty_iff, h]
  simp only [splitOneGroup]
  rw [if_pos he]

/-! ### Deduplication and merge -/

/-- Unfolding `List.lookup` at a cons cell, with a propositional guard. -/
theorem lookup_cons (k a : String) (v : MatchProfile) (l : List (String × MatchProfile)) :
    List.lookup k ((a, v) :: l) = if k = a then some v else List.lookup k l := by
  by_cases h : k = a
  · have hb : (k == a) = true := by simp [h]
    rw [List.lookup, hb, if_pos h]
  · have hb : (k == a) = false := by simp [h]
    rw [List.lookup, hb, if_neg h]

/-- Lookup after updating the entry of `key` alone. -/
theorem lookup_map_update (f : MatchProfile → MatchProfile) (key : String) :
    ∀ (l : List (String × MatchProfile)) (k : String),
    (l.map (fun q => if q.1 = key then (q.1, f q.2) else q)).lookup k =
      if k = key then (l.lookup key).map f else l.lookup k := by
  intro l
  induction l with
  | nil =>
    intro k
    by_cases h : k = key <;> simp [List.lookup, h]
  | cons q l ih =>
    obtain ⟨qk, qv⟩ := q
    intro k
    by_cases hq : qk = key
    · have hhead : (if (qk, qv).1 = key then ((qk, qv).1, f (qk, qv).2) else (qk, qv))
          = (qk, f qv) := by
        simp [hq]
      rw [List.map_cons, hhead, lookup_cons, lookup_cons, lookup_cons]
      by_cases hk : k = qk
      · simp [hk, hq, hk.trans hq]
      · have hkey : ¬ k = key := fun h => hk (h.trans hq.symm)
        simp [hk, hkey, ih k]
    · have hhead : (if (qk, qv).1 = key then ((qk, qv).1, f (qk, qv).2) else (qk, qv))
          = (qk, qv) := by
        simp [hq]
      rw [List.map_cons, hhead, lookup_cons, lookup_cons, lookup_cons]
      by_cases hk : k = qk
      · have hkey : ¬ k = key := fun h => hq (hk.symm.trans h)
        simp [hk, hkey, hq]
      · by_cases hkey : k = key
        · have h2 : ¬ key = qk := fun h => hq h.symm
          simp [hk, hkey, h2, ih key]
        · simp [hk, hkey, ih k]

/-- Lookup skips over a prefix in which the key is absent. -/
theorem lookup_append_none {k : String} :
    ∀ {l1 : List (String × MatchProfile)}, l1.lookup k = none →
    ∀ l2, (l1 ++ l2).lookup k = l2.lookup k := by
  intro l1
  induction l1 with
  | nil => intro _ l2; rfl
  | cons q l ih =>
    obtain ⟨qk, qv⟩ := q
    intro h l2
    rw [lookup_cons] at h
    rw [List.cons_append, lookup_cons]
    by_cases hk : k = qk
    · rw [if_pos hk] at h
      exact absurd h (by simp)
    · rw [if_neg hk] at h
      rw [if_neg hk]
      exact ih h l2

/-- Lookup keeps a hit found in the prefix. -/
theorem lookup_append_some {k : String} {p : MatchProfile} :
    ∀ {l1 : List (String × MatchProfile)}, l1.lookup k = some p →
    ∀ l2, (l1 ++ l2).lookup k = some p := by
  intro l1
  induction l1 with
  | nil => intro h; exact absurd h (by simp [List.lookup])
  | cons q l ih =>
    obtain ⟨qk, qv⟩ := q
    intro h l2
    rw [lookup_cons] at h
    rw [List.cons_append, lookup_cons]
    by_cases hk : k = qk
    · rw [if_pos hk] at h
      rw [if_pos hk]
      exact h
    · rw [if_neg hk] at h
      rw [if_neg hk]
      exact ih h l2

/-- One build step changes exactly the entry of the record's canonical name,
merging into the existing profile or into a fresh one. -/
theorem lookup_buildStep (acc : List (String × MatchProfile)) (m : RawDNAMatch)
    (k : String) :
    (buildStep acc m).lookup k =
      if k = canonicalizeName m.matchName then
        some (mergeMatchIntoProfile
          ((acc.lookup k).getD (initProfile k m)) m)
      else acc.lookup k := by
  simp only [buildStep]
  by_cases hk : k = canonicalizeName m.matchName
  · subst hk
    rw [if_pos rfl]
    cases hl : acc.lookup (canonicalizeName m.matchName) with
    | some p =>
      rw [if_pos (show (some p : Option MatchProfile).isSome = true from rfl),
        lookup_map_update (fun x => mergeMatchIntoProfile x m)
          (canonicalizeName m.matchName) acc (canonicalizeName m.matchName),
        if_pos rfl, hl]
      rfl
    | none =>
      rw [if_neg (show ¬ ((none : Option MatchProfile).isSome = true) by simp),
        lookup_append_none hl, lookup_cons, if_pos rfl]
      rfl
  · rw [if_neg hk]
    cases hl : acc.lookup (canonicalizeName m.matchName) with
    | some p =>
      rw [if_pos (show (some p : Option MatchProfile).isSome = true from rfl),
        lookup_map_update (fun x => mergeMatchIntoProfile x m)
          (canonicalizeName m.matchName) acc k,
        if_neg hk]
    | none =>
      rw [if_neg (show ¬ ((none : Option MatchProfile).isSome = true) by simp)]
      cases hlk : acc.lookup k with
      | some q =>
        rw [lookup_append_some hlk]
      | none =>
        rw [lookup_append_none hlk, lookup_cons, if_neg hk]
        rfl

/-- The looked-up profile after folding the build over a record list. -/
theorem lookup_foldl_buildStep (key : String) :
    ∀ (l : List RawDNAMatch) (acc : List (String × MatchProfile)),
    (l.foldl buildStep acc).lookup key =
      match acc.lookup key, recordsFor l key with
      | some p, rs => some (rs.foldl mergeMatchIntoProfile p)
      | none, [] => none
      | none, m :: ms => some (ms.foldl mergeMatchIntoProfile
          (mergeMatchIntoProfile (initProfile key m) m)) := by
  intro l
  induction l with
  | nil =>
    intro acc
    cases h : acc.lookup key <;> simp [recordsFor, h]
  | cons m l ih =>
    intro acc
    rw [List.foldl_cons, ih (buildStep acc m)]
    by_cases hm : canonicalizeName m.matchName = key
    · have hd : (decide (canonicalizeName m.matchName = key)) = true := decide_eq_true hm
      have hrec : recordsFor (m :: l) key = m :: recordsFor l key := by
        rw [recordsFor, List.filter_cons, if_pos hd]
        rfl
      have hbs : (buildStep acc m).lookup key =
          some (mergeMatchIntoProfile ((acc.lookup key).getD (initProfile key m)) m) := by
        rw [lookup_buildStep, if_pos hm.symm]
      rw [hbs, hrec]
      cases h : acc.lookup key <;> simp [h]
    · have hd : ¬ ((decide (canonicalizeName m.matchName = key)) = true) := by
        simpa using hm
      have hrec : recordsFor (m :: l) key = recordsFor l key := by
        rw [recordsFor, List.filter_cons, if_neg hd]
        rfl
      have hbs : (buildStep acc m).lookup key = acc.lookup key := by
        rw [lookup_buildStep, if_neg (fun h => hm h.symm)]
      rw [hbs, hrec]

/-- The profile stored for a key is the fold of the merges over exactly the
records of that key, seeded from the first such record. -/
theorem lookup_buildProfiles (l : List RawDNAMatch) (key : String) :
    (buildProfiles l).lookup key =
      match recordsFor l key with
      | [] => none
      | m :: ms => some (ms.foldl mergeMatchIntoProfile
          (mergeMatchIntoProfile (initProfile key m) m)) := by
  rw [buildProfiles, lookup_foldl_buildStep key l []]
  have hnil : List.lookup key ([] : List (String × MatchProfile)) = none := rfl
  rw [hnil]
  cases hrs : recordsFor l key with
  | nil => rfl
  | cons m ms => rfl

/-- Membership view of the JS set add. -/
theorem toFinset_jsSetAddStr (l : List String) (x : String) :
    (jsSetAddStr l x).toFinset = insert x l.toFinset := by
  rw [jsSetAddStr]
  split
  · rename_i h
    rw [Finset.insert_eq_self.mpr (List.mem_toFinset.mpr h)]
  · ext a
    simp [or_comm]

/-- Membership view of folding the JS set add over a list. -/
theorem toFinset_foldl_jsSetAddStr :
    ∀ (xs init : List String),
    (xs.foldl jsSetAddStr init).toFinset = init.toFinset ∪ xs.toFinset := by
  intro xs
  induction xs with
  | nil => intro init; simp
  | cons x xs ih =>
    intro init
    rw [List.foldl_cons, ih, toFinset_jsSetAddStr]
    ext a <;> simp <;> tauto

/-- Field view of folding the merge over a record list: the display name is
kept, and each set field accumulates exactly the records' contributions. -/
theorem foldl_merge_fields :
    ∀ (rs : List RawDNAMatch) (p : MatchProfile),
    (rs.foldl mergeMatchIntoProfile p).displayName = p.displayName ∧
    (rs.foldl mergeMatchIntoProfile p).nameVariations.toFinset =
      p.nameVariations.toFinset ∪ (rs.map (fun r => r.matchName)).toFinset ∧
    (rs.foldl mergeMatchIntoProfile p).ancestralSurnames.toFinset =
      p.ancestralSurnames.toFinset ∪
        ((rs.map (fun r => r.ancestralSurnames.getD [])).flatten).toFinset ∧
    (rs.foldl mergeMatchIntoProfile p).locations.toFinset =
      p.locations.toFinset ∪ ((rs.map (fun r => r.locations.getD [])).flatten).toFinset ∧
    (rs.foldl mergeMatchIntoProfile p).notes.toFinset =
      p.notes.toFinset ∪ ((rs.map notesOf).flatten).toFinset ∧
    (rs.foldl mergeMatchIntoProfile p).sourceFiles.toFinset =
      p.sourceFiles.toFinset ∪ (rs.map (fun r => r.sourceFile)).toFinset := by
  intro rs
  induction rs with
  | nil => intro p; simp
  | cons m rs ih =>
    intro p
    rw [List.foldl_cons]
    obtain ⟨h1, h2, h3, h4, h5, h6⟩ := ih (mergeMatchIntoProfile p m)
    refine ⟨?_, ?_, ?_, ?_, ?_, ?_⟩
    · rw [h1]
      rfl
    · rw [h2]
      show (jsSetAddStr p.nameVariations m.matchName).toFinset ∪ _ = _
      rw [toFinset_jsSetAddStr]
      ext a <;> simp <;> tauto
    · rw [h3]
      show ((m.ancestralSurnames.getD []).foldl jsSetAddStr p.ancestralSurnames).toFinset
        ∪ _ = _
      rw [toFinset_foldl_jsSetAddStr]
      ext a <;> simp <;> tauto
    · rw [h4]
      show ((m.locations.getD []).foldl jsSetAddStr p.locations).toFinset ∪ _ = _
      rw [toFinset_foldl_jsSetAddStr]
      ext a <;> simp <;> tauto
    · rw [h5]
      show (if strTruthy m.notes then jsSetAddStr p.notes (m.notes.getD "")
        else p.notes).toFinset ∪ _ = _
      by_cases ht : strTruthy m.notes = true
      · rw [if_pos ht, toFinset_jsSetAddStr]
        ext a <;> simp [notesOf, ht] <;> tauto
      · rw [if_neg ht]
        ext a <;> simp [notesOf, ht] <;> tauto
    · rw [h6]
      show (jsSetAddStr p.sourceFiles m.sourceFile).toFinset ∪ _ = _
      rw [toFinset_jsSetAddStr]
      ext a <;> simp <;> tauto

/-- The looked-up profile: its display name is the first raw name of the key,
and each set field is exactly the union of the key's records' contributions. -/
theorem lookup_profile_fields {l : List RawDNAMatch} {key : String} {p : MatchProfile}
    (h : (buildProfiles l).lookup key = some p) :
    (recordsFor l key).head?.map (fun m => m.matchName) = some p.displayName ∧
    p.nameVariations.toFinset = ((recordsFor l key).map (fun r => r.matchName)).toFinset ∧
    p.ancestralSurnames.toFinset =
      (((recordsFor l key).map (fun r => r.ancestralSurnames.getD [])).flatten).toFinset ∧
    p.locations.toFinset =
      (((recordsFor l key).map (fun r => r.locations.getD [])).flatten).toFinset ∧
    p.notes.toFinset = (((recordsFor l key).map notesOf).flatten).toFinset ∧
    p.sourceFiles.toFinset = ((recordsFor l key).map (fun r => r.sourceFile)).toFinset := by
  rw [lookup_buildProfiles] at h
  cases hrs : recordsFor l key with
  | nil =>
    rw [hrs] at h
    exact absurd h (by simp)
  | cons m ms =>
    rw [hrs] at h
    simp only [Option.some.injEq] at h
    subst h
    have hfold : ms.foldl mergeMatchIntoProfile
        (mergeMatchIntoProfile (initProfile key m) m) =
        (m :: ms).foldl mergeMatchIntoProfile (initProfile key m) := rfl
    rw [hfold]
    obtain ⟨h1, h2, h3, h4, h5, h6⟩ := foldl_merge_fields (m :: ms) (initProfile key m)
    refine ⟨?_, ?_, ?_, ?_, ?_, ?_⟩
    · have hd : ((m :: ms).foldl mergeMatchIntoProfile (initProfile key m)).displayName
          = m.matchName := h1
      rw [List.head?_cons, hd]
      rfl
    · rw [h2]
      show ([m.matchName] : List String).toFinset ∪ _ = _
      ext a <;> simp <;> tauto
    · rw [h3]
      show ((m.ancestralSurnames.getD []).foldl jsSetAddStr []).toFinset ∪ _ = _
      rw [toFinset_foldl_jsSetAddStr]
      ext a <;> simp <;> tauto
    · rw [h4]
      show ((m.locations.getD []).foldl jsSetAddStr []).toFinset ∪ _ = _
      rw [toFinset_foldl_jsSetAddStr]
      ext a <;> simp <;> tauto
    · rw [h5]
      show (notesOf m).toFinset ∪ _ = _
      ext a <;> simp <;> tauto
    · rw [h6]
      show ([m.sourceFile] : List String).toFinset ∪ _ = _
      ext a <;> simp <;> tauto

/-! ### CSV parsing and the file loop -/

/-- With every earlier source readable, the loop aborts at the first read
failure with that file name. -/
theorem collectFiles_error (s : TriangulationSettings) (name e : String)
    (rest : List (String × Except String (List CSVRow))) :
    ∀ pre, (∀ q ∈ pre, ∃ rows, q.2 = Except.ok rows) →
    collectFiles s (pre ++ (name, Except.error e) :: rest) =
      Except.error ("Error processing " ++ name ++ ": " ++ e) := by
  intro pre
  induction pre with
  | nil => intro _; rfl
  | cons q pre ih =>
    intro hpre
    obtain ⟨qn, qres⟩ := q
    obtain ⟨rows, hq⟩ := hpre (qn, qres) (List.mem_cons_self _ _)
    simp only at hq
    subst hq
    rw [List.cons_append, collectFiles,
      ih (fun r hr => hpre r (List.mem_cons_of_mem _ hr))]

/-! ## Claim theorems -/

/-- C1: on one chromosome the engine scans start-sorted candidates, stopping
at the first candidate whose start exceeds the seed's end, and accepts exactly
the unprocessed candidates whose overlap with the seed (min of ends minus max
of starts) is positive with overlap ratio against the smaller span at least
the threshold; for A[10,50], B[20,60], C[15,55], D[1000,1100] on chromosome 1
with threshold 0.5 and minimumMatches 3, exactly one group is produced,
spanning [20,50] with members {A,B,C}, and D is excluded. -/
theorem claim_C1_grouping_engine :
    (∀ (ms : List DNAMatch) (base : DNAMatch) (thr : ℚ) (processed js : List ℕ),
      js.Pairwise (fun a b =>
        (ms.getD a default).startPosition ≤ (ms.getD b default).startPosition) →
      scanCandidates ms base thr processed js =
        js.filter (fun j => decide (j ∉ processed ∧
          acceptsCandidate base (ms.getD j default) thr))) ∧
    (findTriangulationsOnChromosome [segA, segB, segC, segD] DEFAULT_SETTINGS).map
        (fun g => (g.startPosition, g.endPosition, g.«matches»)) =
      [(20, 50, [segA, segC, segB])] ∧
    [segA, segC, segB].Perm [segA, segB, segC] ∧
    ∀ g ∈ findTriangulationsOnChromosome [segA, segB, segC, segD] DEFAULT_SETTINGS,
      segD ∉ g.«matches» := by
  refine ⟨scanCandidates_sorted_eq, ?_, ?_, ?_⟩
  · norm_num [findTriangulationsOnChromosome, sweepFrom, scanCandidates, sortByStart,
      insertByStart, acceptsCandidate, maxStartOf, minEndOf, totalSizeOf,
      DEFAULT_SETTINGS, segA, segB, segC, segD, List.range_succ]
  · exact List.Perm.cons _ (List.Perm.swap _ _ _)
  · intro g hg
    rw [show findTriangulationsOnChromosome [segA, segB, segC, segD] DEFAULT_SETTINGS =
        [{ chromosome := 1, startPosition := 20, endPosition := 50,
           «matches» := [segA, segC, segB], averageSize := 10, totalSize := 30,
           confidenceScore := 0 }] by
      norm_num [findTriangulationsOnChromosome, sweepFrom, scanCandidates, sortByStart,
        insertByStart, acceptsCandidate, maxStartOf, minEndOf, totalSizeOf,
        DEFAULT_SETTINGS, segA, segB, segC, segD, List.range_succ]] at hg
    rcases List.mem_singleton.mp hg with rfl
    decide

/-- Witness for C1: the scan characterization applied to the sorted example
segment list with seed A and threshold 1/2. -/
theorem claim_C1_grouping_engine_witness :
    scanCandidates [segA, segC, segB, segD] segA (1/2) [] [1, 2, 3] =
      List.filter (fun j => decide (j ∉ ([] : List ℕ) ∧
        acceptsCandidate segA ([segA, segC, segB, segD].getD j default) (1/2))) [1, 2, 3] :=
  claim_C1_grouping_engine.1 [segA, segC, segB, segD] segA (1/2) [] [1, 2, 3] (by decide)

/-- C3: among all bands whose range contains the total shared cM value, the
prediction picks the one with the highest prior probability (any earlier
containing band is strictly smaller, so ties keep table order), defaulting to
the table's first entry when no band contains the value; the confidence label
is "high" iff the chosen probability is ≥ 0.8, "medium" iff it is in
[0.6, 0.8), "low" otherwise; 3600 cM yields Parent/Child "high" and 300 cM
yields the 2nd-cousin band. -/
theorem claim_C3_predict_relationship :
    (∀ t : ℚ,
      (containingBands t = [] → predictRelationship t =
        { relationship := "Parent/Child", probability := 0.99, confidence := "high" }) ∧
      (containingBands t ≠ [] →
        ∃ pre post, containingBands t = pre ++ chosenEntry t :: post ∧
          (∀ b ∈ pre, b.2.probability < (chosenEntry t).2.probability) ∧
          (∀ b ∈ containingBands t, b.2.probability ≤ (chosenEntry t).2.probability)) ∧
      (predictRelationship t).relationship = (chosenEntry t).1 ∧
      (predictRelationship t).probability = (chosenEntry t).2.probability ∧
      ((predictRelationship t).confidence = "high" ↔
        (0.8 : ℚ) ≤ (predictRelationship t).probability) ∧
      ((predictRelationship t).confidence = "medium" ↔
        (0.6 : ℚ) ≤ (predictRelationship t).probability ∧
          (predictRelationship t).probability < 0.8) ∧
      ((predictRelationship t).confidence = "low" ↔
        (predictRelationship t).probability < 0.6)) ∧
    predictRelationship 3600 =
      { relationship := "Parent/Child", probability := 0.99, confidence := "high" } ∧
    predictRelationship 300 =
      { relationship := "2nd Cousin", probability := 0.65, confidence := "medium" } := by
  have hlabel : ∀ t : ℚ,
      (predictRelationship t).relationship = (chosenEntry t).1 ∧
      (predictRelationship t).probability = (chosenEntry t).2.probability ∧
      ((predictRelationship t).confidence = "high" ↔
        (0.8 : ℚ) ≤ (predictRelationship t).probability) ∧
      ((predictRelationship t).confidence = "medium" ↔
        (0.6 : ℚ) ≤ (predictRelationship t).probability ∧
          (predictRelationship t).probability < 0.8) ∧
      ((predictRelationship t).confidence = "low" ↔
        (predictRelationship t).probability < 0.6) := by
    intro t
    rw [predictRelationship]
    by_cases h8 : (0.8 : ℚ) ≤ (chosenEntry t).2.probability
    · rw [if_pos h8]
      refine ⟨rfl, rfl, ?_, ?_, ?_⟩
      · exact iff_of_true rfl h8
      · exact ⟨fun h => absurd h (show ("high" : String) ≠ "medium" by decide),
          fun h => absurd h.2 (not_lt.mpr h8)⟩
      · exact ⟨fun h => absurd h (show ("high" : String) ≠ "low" by decide),
          fun h => absurd h (not_lt.mpr (le_trans (by norm_num) h8))⟩
    · rw [if_neg h8]
      push_neg at h8
      by_cases h6 : (0.6 : ℚ) ≤ (chosenEntry t).2.probability
      · rw [if_pos h6]
        refine ⟨rfl, rfl, ?_, ?_, ?_⟩
        · exact ⟨fun h => absurd h (show ("medium" : String) ≠ "high" by decide),
            fun h => absurd h (not_le.mpr h8)⟩
        · exact iff_of_true rfl ⟨h6, h8⟩
        · exact ⟨fun h => absurd h (show ("medium" : String) ≠ "low" by decide),
            fun h => absurd h6 (not_le.mpr h)⟩
      · rw [if_neg h6]
        push_neg at h6
        refine ⟨rfl, rfl, ?_, ?_, ?_⟩
        · exact ⟨fun h => absurd h (show ("low" : String) ≠ "high" by decide),
            fun h => absurd h (not_le.mpr (lt_of_lt_of_le h6 (by norm_num)))⟩
        · exact ⟨fun h => absurd h (show ("low" : String) ≠ "medium" by decide),
            fun h => absurd h.1 (not_le.mpr h6)⟩
        · exact iff_of_true rfl h6
  refine ⟨fun t => ?_, ?_, ?_⟩
  · have H := predictRelLoop_spec t RELATIONSHIP_DATA
      (RELATIONSHIP_DATA.headD ("", ⟨0, 0, 0⟩), 0)
    have hcb : containingBands t =
        RELATIONSHIP_DATA.filter (fun e => decide (bandContains t e)) := rfl
    refine ⟨?_, ?_, hlabel t⟩
    · intro hnil
      rcases H with ⟨heq, _⟩ | ⟨pre, e, post, hfil, _, _, _, _⟩
      · have hch : chosenEntry t = RELATIONSHIP_DATA.headD ("", ⟨0, 0, 0⟩) := by
          rw [chosenEntry, heq]
        rw [predictRelationship, hch]
        norm_num [RELATIONSHIP_DATA]
      · rw [hcb] at hnil
        rw [hnil] at hfil
        exact absurd hfil.symm (List.append_ne_nil_of_right_ne_nil _ (List.cons_ne_nil _ _))
    · intro hne
      rcases H with ⟨heq, hall⟩ | ⟨pre, e, post, hfil, heq, _, hpre, hpost⟩
      · obtain ⟨b, hb⟩ := List.exists_mem_of_ne_nil _ hne
        have hb' := hb
        rw [hcb] at hb'
        have hmem := List.mem_of_mem_filter hb'
        have := RELATIONSHIP_DATA_pos b hmem
        have := hall b hb'
        norm_num at this
        linarith
      · have hch : chosenEntry t = e := by rw [chosenEntry, heq]
        refine ⟨pre, post, by rw [hcb, hfil, hch], by rw [hch]; exact hpre, ?_⟩
        intro b hb
        rw [hcb, hfil, hch] at *
        rcases List.mem_append.mp hb with hb | hb
        · exact le_of_lt (hpre b hb)
        · rcases List.mem_cons.mp hb with rfl | hb
          · exact le_refl _
          · exact hpost b hb
  · norm_num [predictRelationship, chosenEntry, predictRelLoop, RELATIONSHIP_DATA, bandContains]
  · norm_num [predictRelationship, chosenEntry, predictRelLoop, RELATIONSHIP_DATA, bandContains]

/-- Witness for C3: the general part applied at 300 cM, where the containing
bands are the 2nd-cousin bands and the chosen entry dominates them. -/
theorem claim_C3_predict_relationship_witness :
    ∃ pre post, containingBands 300 = pre ++ chosenEntry 300 :: post ∧
      (∀ b ∈ pre, b.2.probability < (chosenEntry 300).2.probability) ∧
      (∀ b ∈ containingBands 300, b.2.probability ≤ (chosenEntry 300).2.probability) :=
  (claim_C3_predict_relationship.1 300).2.1
    (by norm_num [containingBands, RELATIONSHIP_DATA, bandContains]
        exact List.cons_ne_nil _ _)

/-- C4: for a group whose members have nonnegative sizes, positive spans and
a strictly positive common intersection (which holds for every group the
engine emits), the attached confidence score equals
`round(100·(0.3·min(avg/20,1) + 0.2·(mean pairwise overlap pct)/100 +
0.3·min(count/10,1) + 0.2·min(totalCM/1000,1)))` with the mean taken over all
pairs, and the score is an integer in [0,100]. -/
theorem claim_C4_confidence_score (ms : List DNAMatch)
    (h2 : 2 ≤ ms.length)
    (hsz : ∀ m ∈ ms, 0 ≤ m.sizeCM)
    (hsp : ∀ m ∈ ms, m.startPosition < m.endPosition)
    (hspan : maxStartOf ms < minEndOf ms) :
    pipelineConfidenceScore ms = confidenceSpecScore ms ∧
    0 ≤ pipelineConfidenceScore ms ∧ pipelineConfidenceScore ms ≤ 100 := by
  have hov : ∀ p ∈ allPairs ms, pairOverlapPos p := by
    intro p hp
    obtain ⟨hm1, hm2⟩ := allPairs_mem hp
    rw [pairOverlapPos]
    have hmax : max p.1.startPosition p.2.startPosition ≤ maxStartOf ms :=
      max_le (start_le_maxStartOf hm1) (start_le_maxStartOf hm2)
    have hmin : minEndOf ms ≤ min p.1.endPosition p.2.endPosition :=
      le_min (minEndOf_le_end hm1) (minEndOf_le_end hm2)
    exact lt_of_le_of_lt hmax (lt_of_lt_of_le hspan hmin)
  have hposlen : 0 < (allPairs ms).length := allPairs_length_pos h2
  have hfe : (allPairs ms).filter (fun p => decide (pairOverlapPos p)) = allPairs ms :=
    List.filter_eq_self.mpr (fun p hp => decide_eq_true (hov p hp))
  have havg : calculateAverageOverlap ms =
      ((allPairs ms).map pairOverlapPct).sum / (((allPairs ms).length : ℕ) : ℚ) := by
    rw [calculateAverageOverlap, if_neg (by omega)]
    simp only [overlapFold_eq, hfe, zero_add]
    rw [if_pos hposlen]
  set S := ((allPairs ms).map pairOverlapPct).sum with hSdef
  set cnt := (allPairs ms).length with hcntdef
  have hcnt0 : (0 : ℚ) < (cnt : ℚ) := by exact_mod_cast hposlen
  have hpct : ∀ x ∈ (allPairs ms).map pairOverlapPct, 0 ≤ x ∧ x ≤ 100 := by
    intro x hx
    obtain ⟨p, hp, rfl⟩ := List.mem_map.mp hx
    have hb := pairOverlapPct_bounds (hov p hp)
      (hsp _ (allPairs_mem hp).1) (hsp _ (allPairs_mem hp).2)
    exact ⟨le_of_lt hb.1, hb.2⟩
  have hS0 : 0 ≤ S := List.sum_nonneg (fun x hx => (hpct x hx).1)
  have hSle : S ≤ 100 * (cnt : ℚ) := by
    have h := List.sum_le_card_nsmul ((allPairs ms).map pairOverlapPct) 100
      (fun x hx => (hpct x hx).2)
    rw [List.length_map] at h
    rw [hSdef, hcntdef]
    calc ((allPairs ms).map pairOverlapPct).sum ≤ (allPairs ms).length • (100 : ℚ) := h
      _ = 100 * ((allPairs ms).length : ℚ) := by rw [nsmul_eq_mul]; ring
  have hM0 : 0 ≤ S / (cnt : ℚ) := div_nonneg hS0 (le_of_lt hcnt0)
  have hM100 : S / (cnt : ℚ) ≤ 100 := by
    rw [div_le_iff hcnt0]
    linarith
  have hn0 : (0 : ℚ) < (ms.length : ℚ) := by
    have : 0 < ms.length := by omega
    exact_mod_cast this
  have htot : 0 ≤ totalSizeOf ms := totalSizeOf_nonneg hsz
  constructor
  · rw [pipelineConfidenceScore, confidenceSpecScore, calculateConfidenceScore, havg]
    exact congrArg jsRound (by push_cast; ring)
  · rw [pipelineConfidenceScore, calculateConfidenceScore, havg]
    have hf1a : 0 ≤ min (totalSizeOf ms / (ms.length : ℚ) / 20) 1 :=
      le_min (by positivity) zero_le_one
    have hf1b : min (totalSizeOf ms / (ms.length : ℚ) / 20) 1 ≤ 1 := min_le_right _ _
    have hf3a : 0 ≤ min ((ms.length : ℚ) / 10) 1 := le_min (by positivity) zero_le_one
    have hf3b : min ((ms.length : ℚ) / 10) 1 ≤ 1 := min_le_right _ _
    have hf4a : 0 ≤ min (totalSizeOf ms / 1000) 1 := le_min (by positivity) zero_le_one
    have hf4b : min (totalSizeOf ms / 1000) 1 ≤ 1 := min_le_right _ _
    have hX0 : (0 : ℚ) ≤ (min (totalSizeOf ms / (ms.length : ℚ) / 20) 1 * 0.3 +
        S / (cnt : ℚ) / 100 * 0.2 + min ((ms.length : ℚ) / 10) 1 * 0.3 +
        min (totalSizeOf ms / 1000) 1 * 0.2) := by
      have : 0 ≤ S / (cnt : ℚ) / 100 := by positivity
      linarith
    have hX1 : (min (totalSizeOf ms / (ms.length : ℚ) / 20) 1 * 0.3 +
        S / (cnt : ℚ) / 100 * 0.2 + min ((ms.length : ℚ) / 10) 1 * 0.3 +
        min (totalSizeOf ms / 1000) 1 * 0.2) ≤ 1 := by
      have : S / (cnt : ℚ) / 100 ≤ 1 := by
        rw [div_le_one (by norm_num : (0:ℚ) < 100)]
        linarith
      linarith
    constructor
    · rw [jsRound]
      apply Int.le_floor.mpr
      push_cast
      nlinarith
    · rw [jsRound]
      have hlt : (min (totalSizeOf ms / (ms.length : ℚ) / 20) 1 * 0.3 +
          S / (cnt : ℚ) / 100 * 0.2 + min ((ms.length : ℚ) / 10) 1 * 0.3 +
          min (totalSizeOf ms / 1000) 1 * 0.2) * 100 + 1/2 < ((101 : ℤ) : ℚ) := by
        push_cast
        nlinarith
      have := Int.floor_lt.mpr hlt
      omega

/-- Witness for C4: the score formula and its [0,100] bounds hold at the
concrete three-member group {A, B, C}. -/
theorem claim_C4_confidence_score_witness :
    pipelineConfidenceScore [segA, segB, segC] = confidenceSpecScore [segA, segB, segC] ∧
    0 ≤ pipelineConfidenceScore [segA, segB, segC] ∧
    pipelineConfidenceScore [segA, segB, segC] ≤ 100 :=
  claim_C4_confidence_score [segA, segB, segC] (by decide) (by decide) (by decide) (by decide)

/-- C10: `calculateAverageOverlap` returns exactly 100 for fewer than two
members and when no pair overlaps positively (then contributing a full
overlap factor of 1 to the confidence score); otherwise it averages overlap
percentages only over the positively overlapping pairs. -/
theorem claim_C10_average_overlap_policy :
    (∀ ms : List DNAMatch, ms.length < 2 → calculateAverageOverlap ms = 100) ∧
    (∀ ms : List DNAMatch, (∀ p ∈ allPairs ms, ¬ pairOverlapPos p) →
      calculateAverageOverlap ms = 100 ∧ calculateAverageOverlap ms / 100 = 1) ∧
    (∀ ms : List DNAMatch,
      (allPairs ms).filter (fun p => decide (pairOverlapPos p)) ≠ [] →
      calculateAverageOverlap ms =
        (((allPairs ms).filter (fun p => decide (pairOverlapPos p))).map pairOverlapPct).sum /
          ((((allPairs ms).filter (fun p => decide (pairOverlapPos p))).length : ℕ) : ℚ)) := by
  have hnil : ∀ ms : List DNAMatch, ms.length < 2 → allPairs ms = [] := by
    intro ms h
    cases ms with
    | nil => rfl
    | cons a t =>
      cases t with
      | nil => simp [allPairs]
      | cons b t2 => simp [List.length_cons] at h; omega
  refine ⟨?_, ?_, ?_⟩
  · intro ms h
    rw [calculateAverageOverlap, if_pos h]
  · intro ms h
    by_cases hlen : ms.length < 2
    · rw [calculateAverageOverlap, if_pos hlen]
      norm_num
    · have hfe : (allPairs ms).filter (fun p => decide (pairOverlapPos p)) = [] :=
        List.filter_eq_nil_iff.mpr (fun p hp => by
          simpa using h p hp)
      rw [calculateAverageOverlap, if_neg hlen]
      simp only [overlapFold_eq, hfe, zero_add]
      norm_num
  · intro ms hne
    have hlen : ¬ ms.length < 2 := by
      intro hlt
      exact hne (by rw [hnil ms hlt]; rfl)
    have hpos : 0 < ((allPairs ms).filter (fun p => decide (pairOverlapPos p))).length :=
      List.length_pos.mpr hne
    rw [calculateAverageOverlap, if_neg hlen]
    simp only [overlapFold_eq, zero_add]
    rw [if_pos hpos]

/-- Witness for C10: a singleton member list yields 100, and the two-member
group {A[10,50], D[1000,1100]} with no overlapping pair yields 100, a full
overlap factor. -/
theorem claim_C10_average_overlap_policy_witness :
    calculateAverageOverlap [segA] = 100 ∧
    (calculateAverageOverlap [segA, segD] = 100 ∧
      calculateAverageOverlap [segA, segD] / 100 = 1) :=
  ⟨claim_C10_average_overlap_policy.1 [segA] (by decide),
   claim_C10_average_overlap_policy.2.1 [segA, segD] (by decide)⟩

/-- C2 (amended): during the per-chromosome sweep every emitted group consumes
a duplicate-free index set, distinct groups consume pairwise disjoint index
sets, and each group's member list is exactly its consumed indices read from
the sorted segment array — so each segment occurrence belongs to at most one
group per chromosome *before* ancestor splitting.  (After splitting the
property fails; see the counterexample.) -/
theorem claim_C2_at_most_one_membership (ms : List DNAMatch) (s : TriangulationSettings) :
    (∀ l ∈ sweepIndexSets ms s, l.Nodup) ∧
    (sweepIndexSets ms s).Pairwise (fun a b => ∀ x ∈ a, x ∉ b) ∧
    ∀ pr ∈ sweepFrom (sortByStart ms) s (List.range (sortByStart ms).length) [],
      pr.1.«matches» = pr.2.map (fun j => (sortByStart ms).getD j default) := by
  have h := sweepFrom_partition (sortByStart ms) s (List.range (sortByStart ms).length) []
    (List.nodup_range _)
  refine ⟨?_, ?_, fun pr hpr => (h.1 pr hpr).2⟩
  · intro l hl
    obtain ⟨pr, hpr, rfl⟩ := List.mem_map.mp hl
    exact (h.1 pr hpr).1
  · exact List.Pairwise.map _ (fun a b hab => hab) h.2

/-- Witness for C2: on the example segments the sweep consumes the single
duplicate-free index set `[0, 1, 2]`. -/
theorem claim_C2_at_most_one_membership_witness : ([0, 1, 2] : List ℕ).Nodup :=
  (claim_C2_at_most_one_membership [segA, segB, segC, segD] DEFAULT_SETTINGS).1 [0, 1, 2]
    (by norm_num [sweepIndexSets, sweepFrom, scanCandidates, sortByStart,
      insertByStart, acceptsCandidate, maxStartOf, minEndOf, totalSizeOf,
      DEFAULT_SETTINGS, segA, segB, segC, segD, List.range_succ])

/-- Counterexample for C2 as stated: after ancestor-based splitting, a member
associated with two distinct suggested ancestors appears in two output groups
on the same chromosome, so the final output does not keep at-most-one
membership. -/
theorem claim_C2_counterexample :
    (splitGroupsBySingleCommonAncestor [dualAncestorGroup] settingsMin2).map
        (fun g => (g.chromosome, (g.«matches».contains dualAncestorMatch1 : Bool))) =
      [(1, true), (1, true)] := by decide

/-- C8: ancestor-based splitting — a group whose members reference no
suggested ancestor passes through unchanged; otherwise the output is exactly
the per-ancestor sub-groups, each built from the deduplicated members recorded
for its ancestor with span and aggregates recomputed as in grouping, kept only
when the member count meets `minimumMatches` and the span is strictly
positive; every index the ancestor map records points to a member referencing
that entry's ancestor (so members with no ancestor association join no
sub-group); and on the Jane/John example with `minimumMatches = 2` exactly the
Jane Doe pair survives while the John Roe singleton is dropped. -/
theorem claim_C8_ancestor_splitting :
    (∀ (g : TriangulationGroup) (s : TriangulationSettings),
      collectAncestors g.«matches» = [] → splitOneGroup g s = [g]) ∧
    (∀ (g : TriangulationGroup) (s : TriangulationSettings),
      collectAncestors g.«matches» ≠ [] →
      splitOneGroup g s = ((collectAncestors g.«matches»).map (subGroupFor g s)).join) ∧
    (∀ (g : TriangulationGroup) (s : TriangulationSettings) (p : String × List ℕ)
      (sg : TriangulationGroup), sg ∈ subGroupFor g s p →
      sg.«matches» = (jsSetDedupNat p.2).map (fun j => g.«matches».getD j default) ∧
      s.minimumMatches ≤ sg.«matches».length ∧
      sg.startPosition = maxStartOf sg.«matches» ∧
      sg.endPosition = minEndOf sg.«matches» ∧
      sg.startPosition < sg.endPosition ∧
      sg.totalSize = totalSizeOf sg.«matches» ∧
      sg.averageSize = totalSizeOf sg.«matches» / (sg.«matches».length : ℚ) ∧
      sg.commonAncestors = some [p.1]) ∧
    (∀ ms : List DNAMatch, ∀ p ∈ collectAncestors ms, ∀ i ∈ p.2,
      i < ms.length ∧
      ∃ tm ∈ (ms.getD i default).treeMatchInfo.getD [], p.1 ∈ tm.suggestedAncestors) ∧
    (splitGroupsBySingleCommonAncestor [janeJohnGroup] settingsMin2).map
        (fun g => (g.«matches», g.commonAncestors)) =
      [([janeMatchA, janeMatchB], some ["Jane Doe"])] := by
  refine ⟨fun g s h => splitOneGroup_no_ancestors h,
    fun g s h => splitOneGroup_eq_join h,
    fun g s p sg h => ?_,
    fun ms => collectAncestors_sound ms,
    by decide⟩
  obtain ⟨h1, h2, h3, h4, h5, h6, h7, h8, _⟩ := mem_subGroupFor h
  exact ⟨h1, h2, h3, h4, h5, h6, h7, h8⟩

/-- Witness for C8: the Jane/John group has a nonempty ancestor map, so the
split equals the joined per-ancestor sub-groups. -/
theorem claim_C8_ancestor_splitting_witness :
    splitOneGroup janeJohnGroup settingsMin2 =
      ((collectAncestors janeJohnGroup.«matches»).map
        (subGroupFor janeJohnGroup settingsMin2)).join :=
  claim_C8_ancestor_splitting.2.1 janeJohnGroup settingsMin2 (by decide)

/-- Permuted lists of strings have the same `toFinset`. -/
theorem toFinset_eq_of_perm {l1 l2 : List String} (h : l1.Perm l2) :
    l1.toFinset = l2.toFinset := by
  ext a
  simp only [List.mem_toFinset]
  exact h.mem_iff

/-- C6: the deduplication merge is order-independent for set-valued fields —
permuting the raw records leaves, for each canonical key, the same profile
domain and identical name-variation, ancestral-surname, location, note and
source-file sets; the display name is the first raw name seen for that key in
input order (so only it may depend on order). -/
theorem claim_C6_dedup_order_independent :
    ∀ (l1 l2 : List RawDNAMatch), l1.Perm l2 → ∀ key : String,
      (((buildProfiles l1).lookup key).isSome ↔ ((buildProfiles l2).lookup key).isSome) ∧
      (∀ p1 p2, (buildProfiles l1).lookup key = some p1 →
        (buildProfiles l2).lookup key = some p2 →
        p1.nameVariations.toFinset = p2.nameVariations.toFinset ∧
        p1.ancestralSurnames.toFinset = p2.ancestralSurnames.toFinset ∧
        p1.locations.toFinset = p2.locations.toFinset ∧
        p1.notes.toFinset = p2.notes.toFinset ∧
        p1.sourceFiles.toFinset = p2.sourceFiles.toFinset) ∧
      (∀ p, (buildProfiles l1).lookup key = some p →
        (recordsFor l1 key).head?.map (fun m => m.matchName) = some p.displayName) := by
  intro l1 l2 hperm key
  have hrec : (recordsFor l1 key).Perm (recordsFor l2 key) := hperm.filter _
  refine ⟨?_, ?_, fun p hp => (lookup_profile_fields hp).1⟩
  · rw [lookup_buildProfiles, lookup_buildProfiles]
    cases h1 : recordsFor l1 key with
    | nil =>
      rw [h1] at hrec
      have h2 : recordsFor l2 key = [] := hrec.symm.eq_nil
      rw [h2]
    | cons m ms =>
      rw [h1] at hrec
      cases h2 : recordsFor l2 key with
      | nil =>
        rw [h2] at hrec
        exact absurd hrec.eq_nil (by simp)
      | cons m2 ms2 => simp
  · intro p1 p2 hp1 hp2
    have e1 := lookup_profile_fields hp1
    have e2 := lookup_profile_fields hp2
    refine ⟨?_, ?_, ?_, ?_, ?_⟩
    · rw [e1.2.1, e2.2.1]
      exact toFinset_eq_of_perm (hrec.map _)
    · rw [e1.2.2.1, e2.2.2.1]
      exact toFinset_eq_of_perm ((hrec.map _).flatten)
    · rw [e1.2.2.2.1, e2.2.2.2.1]
      exact toFinset_eq_of_perm ((hrec.map _).flatten)
    · rw [e1.2.2.2.2.1, e2.2.2.2.2.1]
      exact toFinset_eq_of_perm ((hrec.map _).flatten)
    · rw [e1.2.2.2.2.2, e2.2.2.2.2.2]
      exact toFinset_eq_of_perm (hrec.map _)

/-- Witness for C6: two same-named records from different files, merged in
both orders, give equal surname and source-file sets. -/
theorem claim_C6_dedup_order_independent_witness :
    pAl1.nameVariations.toFinset = pAl2.nameVariations.toFinset ∧
    pAl1.ancestralSurnames.toFinset = pAl2.ancestralSurnames.toFinset ∧
    pAl1.locations.toFinset = pAl2.locations.toFinset ∧
    pAl1.notes.toFinset = pAl2.notes.toFinset ∧
    pAl1.sourceFiles.toFinset = pAl2.sourceFiles.toFinset :=
  (claim_C6_dedup_order_independent [rawAlpha, rawBeta] [rawBeta, rawAlpha]
    (List.Perm.swap rawBeta rawAlpha []) "al").2.1 pAl1 pAl2
    (by simp [buildProfiles, buildStep, canonicalizeName, canonicalizeChars, jsToLower,
      trimWs, trimRight, collapseWs, collapseWsAux, commaRewrite, removeTokensRun,
      suffixTokens, titleTokens, isWs, isWordChar, initProfile, mergeMatchIntoProfile,
      jsSetAddStr, notesOf, strTruthy, List.lookup, rawAlpha, rawBeta, pAl1])
    (by simp [buildProfiles, buildStep, canonicalizeName, canonicalizeChars, jsToLower,
      trimWs, trimRight, collapseWs, collapseWsAux, commaRewrite, removeTokensRun,
      suffixTokens, titleTokens, isWs, isWordChar, initProfile, mergeMatchIntoProfile,
      jsSetAddStr, notesOf, strTruthy, List.lookup, rawAlpha, rawBeta, pAl2])

/-- Counterexample for C7 as stated: a file whose rows lack the required
columns (a schema failure) does not abort the run — processing continues and
the second file's segments are returned, with no error naming the bad file. -/
theorem claim_C7_counterexample :
    processTriangulation [("bad.csv", Except.ok [badRow]), ("good.csv", Except.ok [goodRow])]
      DEFAULT_SETTINGS =
      Except.ok ([{ toDNAMatch := bobMatch, sourceFile := "good.csv" }], []) := by
  rfl

/-- C7 (amended): a read failure on any source aborts the run at once with the
offending file name; zero surviving segments across all sources aborts with
the fatal no-data message; but a schema failure alone does not abort — the
file contributes no matches and no issues and the loop continues. -/
theorem claim_C7_error_handling :
    (∀ (s : TriangulationSettings) (pre : List (String × Except String (List CSVRow)))
      (name e : String) (rest : List (String × Except String (List CSVRow))),
      (∀ q ∈ pre, ∃ rows, q.2 = Except.ok rows) →
      processTriangulation (pre ++ (name, Except.error e) :: rest) s =
        Except.error ("Error processing " ++ name ++ ": " ++ e)) ∧
    (∀ (s : TriangulationSettings) (rows : List CSVRow) (fileName : String),
      rows ≠ [] → hasRequiredFields (rows.headD []) = false →
      parseMatchesFromCSV rows fileName s = ([], [])) ∧
    (∀ (s : TriangulationSettings) (name : String) (rows : List CSVRow)
      (rest : List (String × Except String (List CSVRow))),
      parseMatchesFromCSV rows name s = ([], []) →
      collectFiles s ((name, Except.ok rows) :: rest) = collectFiles s rest) ∧
    (∀ (s : TriangulationSettings) (files : List (String × Except String (List CSVRow)))
      (issues : List String),
      collectFiles s files = Except.ok ([], issues) →
      processTriangulation files s = Except.error noValidDataMsg) ∧
    (∀ (s : TriangulationSettings) (files : List (String × Except String (List CSVRow)))
      (raw : List RawDNAMatch) (issues : List String),
      collectFiles s files = Except.ok (raw, issues) → raw ≠ [] →
      processTriangulation files s = Except.ok (raw, issues)) := by
  refine ⟨?_, ?_, ?_, ?_, ?_⟩
  · intro s pre name e rest hpre
    rw [processTriangulation, collectFiles_error s name e rest pre hpre]
  · intro s rows fileName hne hreq
    cases rows with
    | nil => exact absurd rfl hne
    | cons r rs =>
      have hreq2 : ¬ (hasRequiredFields r = true) := by
        have h2 : hasRequiredFields ((r :: rs).headD []) = false := hreq
        simp only [List.headD_cons] at h2
        rw [h2]
        simp
      simp only [parseMatchesFromCSV, List.head?_cons]
      rw [if_neg hreq2]
  · intro s name rows rest hp
    cases hc : collectFiles s rest with
    | error e => simp [collectFiles, hp, hc]
    | ok pr2 =>
      obtain ⟨ms, is⟩ := pr2
      simp [collectFiles, hp, hc]
  · intro s files issues hc
    rw [processTriangulation, hc]
    rfl
  · intro s files raw issues hc hne
    rw [processTriangulation, hc]
    cases raw with
    | nil => exact absurd rfl hne
    | cons m ms => rfl

/-- Witness for C7: a readable file followed by an unreadable one aborts with
the unreadable file's name. -/
theorem claim_C7_error_handling_witness :
    processTriangulation [("good.csv", Except.ok [goodRow]),
      ("broken.csv", Except.error "File read error")] DEFAULT_SETTINGS =
      Except.error ("Error processing " ++ "broken.csv" ++ ": " ++ "File read error") :=
  claim_C7_error_handling.1 DEFAULT_SETTINGS [("good.csv", Except.ok [goodRow])]
    "broken.csv" "File read error" []
    (by
      intro q hq
      rw [List.mem_singleton] at hq
      subst hq
      exact ⟨[goodRow], rfl⟩)

/-- Counterexample for C9 as stated: the placeholder for the numeric name "7"
in row 1 of "f.csv" is "Match 7 (from f.csv)" — it embeds the original name
and the file but no row index (its only digit is the original "7"); the row
index appears only in the recorded issue. -/
theorem claim_C9_counterexample :
    parseMatchesFromCSV [numRow] "f.csv" DEFAULT_SETTINGS =
      ([{ matchName := "Match 7 (from f.csv)", chromosome := 1, startPosition := 100,
          endPosition := 200, sizeCM := 10 }],
       ["Row 1: Numeric match name \"7\" converted to \"Match 7 (from f.csv)\""]) ∧
    ("Match 7 (from f.csv)" : String).data.filter (fun c => c.isDigit) = ['7'] := by
  constructor
  · rfl
  · rfl

/-- C9 (amended): a raw match name that is purely numeric or shorter than two
characters is replaced by a placeholder embedding the original name and the
source file (not the row index); an absent name gets a generic placeholder
embedding the row number and the file; each such event records one issue
naming the row; the issues are returned alongside the matches whether or not
the row validates, and a parsed file always contributes its matches and
issues without aborting the run. -/
theorem claim_C9_name_placeholders :
    (∀ (fileName : String) (rowIndex : ℕ) (raw : String),
      raw ≠ "" → isAllDigits raw = true →
      resolveName fileName rowIndex raw =
        ("Match " ++ raw ++ " (from " ++ fileName ++ ")",
         ["Row " ++ toString (rowIndex + 1) ++ ": Numeric match name \"" ++ raw ++
           "\" converted to \"" ++ ("Match " ++ raw ++ " (from " ++ fileName ++ ")") ++
           "\""])) ∧
    (∀ (fileName : String) (rowIndex : ℕ) (raw : String),
      raw ≠ "" → isAllDigits raw = false → raw.length < 2 →
      resolveName fileName rowIndex raw =
        ("Match \"" ++ raw ++ "\" (from " ++ fileName ++ ")",
         ["Row " ++ toString (rowIndex + 1) ++ ": Short match name \"" ++ raw ++
           "\" - please verify"])) ∧
    (∀ (fileName : String) (rowIndex : ℕ),
      resolveName fileName rowIndex "" =
        ("Match " ++ toString (rowIndex + 1) ++ " (from " ++ fileName ++ ")",
         ["Row " ++ toString (rowIndex + 1) ++
           ": No match name found - using generic identifier"])) ∧
    (∀ (fileName : String) (s : TriangulationSettings) (rowIndex : ℕ) (row : CSVRow),
      (parseRow fileName s rowIndex row).2 =
        (resolveName fileName rowIndex (extractRawName row)).2) ∧
    (∀ (s : TriangulationSettings) (name : String) (rows : List CSVRow)
      (rest : List (String × Except String (List CSVRow)))
      (raw : List RawDNAMatch) (issues : List String),
      collectFiles s rest = Except.ok (raw, issues) →
      collectFiles s ((name, Except.ok rows) :: rest) =
        Except.ok ((parseMatchesFromCSV rows name s).1.map
            (fun m => { toDNAMatch := m, sourceFile := name }) ++ raw,
          (parseMatchesFromCSV rows name s).2 ++ issues)) := by
  refine ⟨?_, ?_, ?_, ?_, ?_⟩
  · intro fileName rowIndex raw hne hdig
    have h1 : (!raw.isEmpty) = true := by
      cases he : raw.isEmpty with
      | false => rfl
      | true => exact absurd ((String.isEmpty_iff raw).mp he) hne
    rw [resolveName, if_pos h1, if_pos hdig]
  · intro fileName rowIndex raw hne hdig hlen
    have h1 : (!raw.isEmpty) = true := by
      cases he : raw.isEmpty with
      | false => rfl
      | true => exact absurd ((String.isEmpty_iff raw).mp he) hne
    have h2 : ¬ (isAllDigits raw = true) := by
      rw [hdig]
      simp
    rw [resolveName, if_pos h1, if_neg h2, if_pos hlen]
  · intro fileName rowIndex
    rfl
  · intro fileName s rowIndex row
    simp only [parseRow]
    split <;> (try split) <;> rfl
  · intro s name rows rest raw issues hc
    simp [collectFiles, hc]

/-- Witness for C9: the numeric name "7" at row index 0 of "f.csv" resolves
to its placeholder and one recorded issue. -/
theorem claim_C9_name_placeholders_witness :
    resolveName "f.csv" 0 "7" =
      ("Match 7 (from f.csv)",
       ["Row 1: Numeric match name \"7\" converted to \"Match 7 (from f.csv)\""]) := by
  have h := claim_C9_name_placeholders.1 "f.csv" 0 "7" (by decide) (by decide)
  rw [h]
  rfl

/-- C5: name canonicalization is idempotent — for every input string `x`,
`canonicalizeName (canonicalizeName x) = canonicalizeName x`. -/
theorem claim_C5_canonicalize_idempotent :
    ∀ s : String, canonicalizeName (canonicalizeName s) = canonicalizeName s := by
  intro s
  show (⟨canonicalizeChars (canonicalizeChars s.data)⟩ : String) = ⟨canonicalizeChars s.data⟩
  rw [canonicalizeChars_idem]

end DNATri
